import Mathlib

/-!
The Effect technique registry and the Dependency registries of minko.

A shallow embedding of

* `framework/include/minko/render/Effect.hpp`, `framework/src/minko/render/Effect.cpp`
  (class `minko::render::Effect`), and
* `plugin/serializer/include/minko/file/Dependency.hpp`
  (class `minko::file::Dependency`, the static writer registry).

Modelling conventions.

* `std::unordered_map<K, T>` is a finite map with unique keys, `AList`; `m[k] = v` is
  `AList.insert`, `m.erase(k)` is `AList.erase`, `m.find(k)` is `AList.lookup`, `m.count(k)` is
  `0` or `1`.  The order of `AList.entries` stands for the (unspecified) iteration order.
* `std::shared_ptr<Pass>` is an address (`PassPtr`); the `Pass` objects live in a `Store`.
  Two techniques (or two slots of one technique) may hold the same address.
* Class `Pass` is declared outside the embedded files.  Its five mutators are a parameter
  `pass : PassCall V → P → P` of every function that calls one of them.
* A C++ exception is a value `Error`; a function that may throw returns the exception, if any,
  together with the state it leaves behind (`Outcome`), so that writes made before a `throw`
  stay visible.
* The closures pushed on `_uniformFunctions`, `_attributeFunctions`, `_macroFunctions` and stored
  in `_indexFunction` are represented by their bound arguments; `set*OnPass` / `define*OnPass`
  / `undefineMacroOnPass` run them.
* `float`, `unsigned short`, `unsigned int` and `int` payloads are only copied, never computed
  with: floats are their bit patterns (`Nat`), the integers are `Nat` / `Int`.
-/

namespace minko

/-- The two exception classes thrown by `Effect`, with their `what()` message. -/
inductive Error where
  | logic_error (what : String)
  | invalid_argument (what : String)
  deriving DecidableEq, Repr

/-- The map type `std::unordered_map<std::string, T>`. -/
abbrev StringMap (T : Type) := AList (fun _ : String => T)

/-- The map type `std::unordered_map<uint, T>`. -/
abbrev UIntMap (T : Type) := AList (fun _ : Nat => T)

/-- The call `m.count(k)` of an `unordered_map`: the number of entries with key `k`. -/
def count {K : Type} [DecidableEq K] {T : Type} (m : AList (fun _ : K => T)) (k : K) : Nat :=
  if k ∈ m then 1 else 0

namespace render

/-- An address of a `Pass` object, the value of a `std::shared_ptr<Pass>`. -/
abbrev PassPtr := Nat

/-- The declaration `typedef std::vector<PassPtr> Technique`. -/
abbrev Technique := List PassPtr

/-- The memory holding the `Pass` objects. -/
abbrev Store (P : Type) := PassPtr → P

/-- A call of one of the five mutators of `Pass` used by `Effect`
(`define` has two overloads), with its arguments. -/
inductive PassCall (V : Type) where
  | setUniform (name : String) (values : V)
  | setVertexAttribute (name : String) (attributeSize : Nat) (data : List Nat)
  | setIndexBuffer (indices : List Nat)
  | defineBool (macroName : String)
  | defineInt (macroName : String) (macroValue : Int)
  | undefine (macroName : String)
  deriving DecidableEq, Repr

/-- The statement `p->f(args)`: the object at address `p` makes the call `c`. -/
def invoke {V P : Type} (pass : PassCall V → P → P) (c : PassCall V) (p : PassPtr)
    (s : Store P) : Store P :=
  Function.update s p (pass c (s p))

/-- The bound arguments of a closure of `_macroFunctions`
(`defineBooleanMacroOnPass`, `defineIntegerMacroOnPass`, `undefineMacroOnPass`). -/
inductive MacroFunction where
  | defineBoolean (macroName : String)
  | defineInteger (macroName : String) (macroValue : Int)
  | undefine (macroName : String)
  deriving DecidableEq, Repr

/-- The data members of `Effect` (`_data`, which no embedded method reads or writes after
construction, is left out). -/
structure Effect (V : Type) where
  name : String
  techniques : StringMap Technique
  fallback : StringMap String
  uniformFunctions : List (String × V)
  attributeFunctions : List (String × Nat × List Nat)
  indexFunction : Option (List Nat)
  macroFunctions : List MacroFunction

/-- What a call that may throw leaves behind: the exception, if one was thrown, the effect and
the store of passes. -/
structure Outcome (V P : Type) where
  thrown : Option Error
  effect : Effect V
  store : Store P

namespace Effect

variable {V P : Type}

/-- The constructor `Effect::Effect(name)` through `Effect::create(name)`. -/
def create (name : String) : Effect V :=
  { name := name, techniques := ∅, fallback := ∅, uniformFunctions := [],
    attributeFunctions := [], indexFunction := none, macroFunctions := [] }

/-- The method `Effect::create(passes, name)`. -/
def createWithPasses (passes : Technique) (name : String) : Effect V :=
  let effect : Effect V := create name
  { effect with techniques := effect.techniques.insert "default" passes }

/-- The method `Effect::technique(techniqueName)`. -/
def technique (e : Effect V) (techniqueName : String) : Except Error Technique :=
  match e.techniques.lookup techniqueName with
  | none => .error (.invalid_argument ("techniqueName = " ++ techniqueName))
  | some t => .ok t

/-- The method `Effect::fallback(techniqueName)`. -/
def getFallback (e : Effect V) (techniqueName : String) : Except Error String :=
  match e.fallback.lookup techniqueName with
  | none => .error (.invalid_argument ("techniqueName = " ++ techniqueName))
  | some f => .ok f

/-- The method `Effect::hasTechnique(techniqueName)`. -/
def hasTechnique (e : Effect V) (techniqueName : String) : Bool :=
  count e.techniques techniqueName != 0

/-- The method `Effect::hasFallback(techniqueName)`. -/
def hasFallback (e : Effect V) (techniqueName : String) : Bool :=
  count e.fallback techniqueName != 0

/-- The method `Effect::setUniformOnPass`. -/
def setUniformOnPass (pass : PassCall V → P → P) (p : PassPtr) (f : String × V)
    (s : Store P) : Store P :=
  invoke pass (.setUniform f.1 f.2) p s

/-- The method `Effect::setVertexAttributeOnPass`. -/
def setVertexAttributeOnPass (pass : PassCall V → P → P) (p : PassPtr)
    (f : String × Nat × List Nat) (s : Store P) : Store P :=
  invoke pass (.setVertexAttribute f.1 f.2.1 f.2.2) p s

/-- The method `Effect::setIndexBufferOnPass`. -/
def setIndexBufferOnPass (pass : PassCall V → P → P) (p : PassPtr) (indices : List Nat)
    (s : Store P) : Store P :=
  invoke pass (.setIndexBuffer indices) p s

/-- The call made by a closure of `_macroFunctions`:
`defineBooleanMacroOnPass`, `defineIntegerMacroOnPass`, `undefineMacroOnPass`. -/
def MacroFunction.toCall : MacroFunction → PassCall V
  | .defineBoolean n => .defineBool n
  | .defineInteger n v => .defineInt n v
  | .undefine n => .undefine n

/-- Running a closure of `_macroFunctions` on a pass. -/
def macroOnPass (pass : PassCall V → P → P) (p : PassPtr) (f : MacroFunction)
    (s : Store P) : Store P :=
  invoke pass (MacroFunction.toCall f) p s

/-- The double loop `for (technique : _techniques) for (pass : technique.second) pass->c`
shared by the five mutators of `Effect`. -/
def forEachPass (pass : PassCall V → P → P) (c : PassCall V) (ts : StringMap Technique)
    (s : Store P) : Store P :=
  ts.entries.foldl (fun s technique => technique.2.foldl (fun s p => invoke pass c p s) s) s

/-- The method `Effect::setUniform(name, values...)`. -/
def setUniform (pass : PassCall V → P → P) (e : Effect V) (s : Store P) (name : String)
    (values : V) : Effect V × Store P :=
  ({ e with uniformFunctions := e.uniformFunctions ++ [(name, values)] },
   forEachPass pass (.setUniform name values) e.techniques s)

/-- The method `Effect::setIndexBuffer(indices)`. -/
def setIndexBuffer (pass : PassCall V → P → P) (e : Effect V) (s : Store P)
    (indices : List Nat) : Effect V × Store P :=
  ({ e with indexFunction := some indices },
   forEachPass pass (.setIndexBuffer indices) e.techniques s)

/-- The method `Effect::setVertexAttribute(name, attributeSize, data)`. -/
def setVertexAttribute (pass : PassCall V → P → P) (e : Effect V) (s : Store P) (name : String)
    (attributeSize : Nat) (data : List Nat) : Effect V × Store P :=
  ({ e with attributeFunctions := e.attributeFunctions ++ [(name, attributeSize, data)] },
   forEachPass pass (.setVertexAttribute name attributeSize data) e.techniques s)

/-- The method `Effect::define(macroName)`. -/
def define (pass : PassCall V → P → P) (e : Effect V) (s : Store P) (macroName : String) :
    Effect V × Store P :=
  ({ e with macroFunctions := e.macroFunctions ++ [.defineBoolean macroName] },
   forEachPass pass (.defineBool macroName) e.techniques s)

/-- The method `Effect::define(macroName, macroValue)`. -/
def defineValue (pass : PassCall V → P → P) (e : Effect V) (s : Store P) (macroName : String)
    (macroValue : Int) : Effect V × Store P :=
  ({ e with macroFunctions := e.macroFunctions ++ [.defineInteger macroName macroValue] },
   forEachPass pass (.defineInt macroName macroValue) e.techniques s)

/-- The method `Effect::undefine(macroName)`. -/
def undefine (pass : PassCall V → P → P) (e : Effect V) (s : Store P) (macroName : String) :
    Effect V × Store P :=
  ({ e with macroFunctions := e.macroFunctions ++ [.undefine macroName] },
   forEachPass pass (.undefine macroName) e.techniques s)

/-- The body of the loop `for (auto& pass : passes)` of `Effect::addTechnique(name, passes)`:
the recorded closures run on one pass, uniforms, then attributes, then the index function if
set, then macros. -/
def replayOnPass (pass : PassCall V → P → P) (e : Effect V) (p : PassPtr) (s : Store P) :
    Store P :=
  let s := e.uniformFunctions.foldl (fun s func => setUniformOnPass pass p func s) s
  let s := e.attributeFunctions.foldl (fun s func => setVertexAttributeOnPass pass p func s) s
  let s := match e.indexFunction with
    | some func => setIndexBufferOnPass pass p func s
    | none => s
  e.macroFunctions.foldl (fun s func => macroOnPass pass p func s) s

/-- The method `Effect::addTechnique(name, passes)`. -/
def addTechnique (pass : PassCall V → P → P) (e : Effect V) (s : Store P) (name : String)
    (passes : Technique) : Outcome V P :=
  if count e.techniques name != 0 then
    { thrown := some (.logic_error ("A technique named '" ++ name ++ "' already exists.")),
      effect := e, store := s }
  else
    { thrown := none,
      effect := { e with techniques := e.techniques.insert name passes },
      store := passes.foldl (fun s p => replayOnPass pass e p s) s }

/-- The method `Effect::addTechnique(name, passes, fallback)`. -/
def addTechniqueWithFallback (pass : PassCall V → P → P) (e : Effect V) (s : Store P)
    (name : String) (passes : Technique) (fallback : String) : Outcome V P :=
  addTechnique pass { e with fallback := e.fallback.insert name fallback } s name passes

/-- The method `Effect::removeTechnique(name)`. -/
def removeTechnique (e : Effect V) (s : Store P) (name : String) : Outcome V P :=
  if count e.techniques name == 0 then
    { thrown := some (.logic_error ("The technique named '" ++ name ++ "' does not exist.")),
      effect := e, store := s }
  else
    { thrown := none,
      effect := { e with techniques := e.techniques.erase name,
                         fallback := e.fallback.erase name },
      store := s }

/-- One call of the public interface of `Effect` that changes it. A mutator of `Effect`
(`setUniform`, `setVertexAttribute`, `setIndexBuffer`, `define(name)`, `define(name, value)`,
`undefine`) is named by the call it forwards to the passes. -/
inductive Call (V : Type) where
  | mutate (c : PassCall V)
  | addTechnique (name : String) (passes : Technique)
  | addTechniqueWithFallback (name : String) (passes : Technique) (fallback : String)
  | removeTechnique (name : String)
  deriving DecidableEq, Repr

/-- The mutator of `Effect` that forwards the call `c`. -/
def mutate (pass : PassCall V → P → P) (e : Effect V) (s : Store P) :
    PassCall V → Effect V × Store P
  | .setUniform name values => setUniform pass e s name values
  | .setVertexAttribute name attributeSize data =>
      setVertexAttribute pass e s name attributeSize data
  | .setIndexBuffer indices => setIndexBuffer pass e s indices
  | .defineBool macroName => define pass e s macroName
  | .defineInt macroName macroValue => defineValue pass e s macroName macroValue
  | .undefine macroName => undefine pass e s macroName

/-- A sequence of mutators, first to last. -/
def mutateAll (pass : PassCall V → P → P) (e : Effect V) (s : Store P)
    (ms : List (PassCall V)) : Effect V × Store P :=
  ms.foldl (fun st c => mutate pass st.1 st.2 c) (e, s)

/-- One call of the interface. -/
def step (pass : PassCall V → P → P) (e : Effect V) (s : Store P) : Call V → Outcome V P
  | .mutate c => { thrown := none, effect := (mutate pass e s c).1, store := (mutate pass e s c).2 }
  | .addTechnique name passes => addTechnique pass e s name passes
  | .addTechniqueWithFallback name passes fallback =>
      addTechniqueWithFallback pass e s name passes fallback
  | .removeTechnique name => removeTechnique e s name

/-- A sequence of calls, first to last; a caller that catches an exception goes on with the
state the throwing call left behind. -/
def run (pass : PassCall V → P → P) (e : Effect V) (s : Store P) (cs : List (Call V)) :
    Effect V × Store P :=
  cs.foldl (fun st c => ((step pass st.1 st.2 c).effect, (step pass st.1 st.2 c).store)) (e, s)

/-- The calls a pass object receives, one after the other. -/
def runCalls (pass : PassCall V → P → P) (cs : List (PassCall V)) (x : P) : P :=
  cs.foldl (fun x c => pass c x) x

/-- The calls made by the closures of `_uniformFunctions`, oldest first. -/
def uniformCalls (e : Effect V) : List (PassCall V) :=
  e.uniformFunctions.map (fun f => PassCall.setUniform f.1 f.2)

/-- The calls made by the closures of `_attributeFunctions`, oldest first. -/
def attributeCalls (e : Effect V) : List (PassCall V) :=
  e.attributeFunctions.map (fun f => PassCall.setVertexAttribute f.1 f.2.1 f.2.2)

/-- The call made by `_indexFunction`, when it is set. -/
def indexCall (e : Effect V) : Option (PassCall V) :=
  e.indexFunction.map PassCall.setIndexBuffer

/-- The calls made by the closures of `_macroFunctions`, oldest first. -/
def macroCalls (e : Effect V) : List (PassCall V) :=
  e.macroFunctions.map MacroFunction.toCall

/-- The calls made by the recorded closures of an effect, in the order in which
`addTechnique` runs them on one pass. -/
def replayCalls (e : Effect V) : List (PassCall V) :=
  uniformCalls e ++ attributeCalls e ++ (indexCall e).toList ++ macroCalls e

/-- The number of slots, over all techniques of the map, that hold the pass `q`. -/
def occurrences (ts : StringMap Technique) (q : PassPtr) : Nat :=
  (ts.entries.map (fun technique => technique.2.count q)).sum

/-- A mutator forwarding `PassCall.setUniform`. -/
def isUniform : PassCall V → Bool
  | .setUniform _ _ => true
  | _ => false

/-- A mutator forwarding `PassCall.setVertexAttribute`. -/
def isAttribute : PassCall V → Bool
  | .setVertexAttribute _ _ _ => true
  | _ => false

/-- A mutator forwarding `PassCall.setIndexBuffer`. -/
def isIndex : PassCall V → Bool
  | .setIndexBuffer _ => true
  | _ => false

/-- A mutator forwarding one of the three macro calls. -/
def isMacro : PassCall V → Bool
  | .defineBool _ => true
  | .defineInt _ _ => true
  | .undefine _ => true
  | _ => false

/-- A pass that only records the calls it receives, oldest first. -/
def tracePass : PassCall V → List (PassCall V) → List (PassCall V) :=
  fun c log => log ++ [c]

/-- Modelled from the spec: class `Pass` (`minko/render/Pass.hpp` is not among the embedded
files), reduced to its table of uniforms: `setUniform(name, value)` binds `name` to `value`,
which the pass then reports for `name`; the other four mutators leave the uniforms alone. -/
def uniformPass : PassCall V → List (String × V) → List (String × V)
  | .setUniform name values, table => (name, values) :: table
  | _, table => table

/-- Modelled from the spec: the value a `uniformPass` reports for the uniform `name`. -/
def uniformOf (table : List (String × V)) (name : String) : Option V :=
  (table.find? (fun b => b.1 == name)).map Prod.snd

/-- The part of the state of a pass that a call writes: one uniform, one vertex attribute, the
index buffer, or one macro. -/
inductive Slot where
  | uniform (name : String)
  | vertexAttribute (name : String)
  | indexBuffer
  | definition (macroName : String)
  deriving DecidableEq, Repr

/-- The part of the state of a pass written by a call. -/
def slot : PassCall V → Slot
  | .setUniform name _ => .uniform name
  | .setVertexAttribute name _ _ => .vertexAttribute name
  | .setIndexBuffer _ => .indexBuffer
  | .defineBool macroName => .definition macroName
  | .defineInt macroName _ => .definition macroName
  | .undefine macroName => .definition macroName

/-- The last call of a sequence that writes the part `σ`, if there is one. -/
def lastCall (σ : Slot) (cs : List (PassCall V)) : Option (PassCall V) :=
  (cs.filter (fun c => slot c == σ)).getLast?

/-- Modelled from the spec: class `Pass` (`minko/render/Pass.hpp` is not among the embedded
files) as a pass that keeps its uniforms, vertex attributes, index buffer and macros as
independent parts of its state: each part holds what the last call on it has set. -/
def slotPass : PassCall V → (Slot → Option (PassCall V)) → (Slot → Option (PassCall V)) :=
  fun c state => Function.update state (slot c) (some c)

/-- A store of `slotPass` objects on which nothing has been set. -/
def unsetStore : Store (Slot → Option (PassCall Nat)) := fun _ _ => none

/-- A history with calls of every kind, the index buffer set twice and a macro defined then
undefined. -/
def mixedHistory : List (PassCall Nat) :=
  [.defineBool "A", .setIndexBuffer [0, 1, 2], .setUniform "u" 1, .undefine "A",
   .setVertexAttribute "uv" 2 [0, 0], .setIndexBuffer [2, 1, 0], .setUniform "u" 2,
   .defineInt "N" 3]

/-! ### Concrete effects and call sequences used by the examples -/

/-- A store of trace passes that have not been called yet. -/
def freshStore : Store (List (PassCall Nat)) := fun _ => []

/-- A store of `uniformPass` objects with no uniform set. -/
def blankStore : Store (List (String × Nat)) := fun _ => []

/-- The effect after `create("fx")` and `addTechnique("A", {pass 0})`. -/
def effectA : Effect Nat :=
  (addTechnique tracePass (create "fx") freshStore "A" [0]).effect

/-- The effect after `create("fx")` and `addTechnique("A", {pass 0}, "B")`. -/
def effectAB : Effect Nat :=
  (addTechniqueWithFallback tracePass (create "fx") freshStore "A" [0] "B").effect

/-- The effect after `create({pass 0}, "fx")` and `addTechnique("alt", {pass 0})`: the techniques
"default" and "alt" share the pass 0. -/
def effectShared : Effect Nat :=
  (addTechnique tracePass (createWithPasses [0] "fx") freshStore "alt" [0]).effect

/-- A macro defined before a uniform is set. -/
def macroThenUniform : List (PassCall Nat) :=
  [.defineBool "A", .setUniform "u" 1]

/-- The index buffer set twice. -/
def twoIndexBuffers : List (PassCall Nat) :=
  [.setIndexBuffer [0, 1, 2], .setIndexBuffer [2, 1, 0]]

/-- The bit pattern of the `float` 1.0f. -/
def oneFloat : Nat := 0x3F800000

end Effect

end render

namespace file

/-- The static data members of `Dependency`, the process-wide writer registry. `GW`, `GT`, `TW`
and `MW` are the `std::function` types `GeometryWriterFunction`, `GeometryTestFunc`,
`TextureWriterFunction` and `MaterialWriterFunction`; a `uint` priority is a `Nat`. -/
structure Dependency.Statics (GW GT TW MW : Type) where
  geometryWriteFunctions : UIntMap GW
  geometryTestFunctions : UIntMap GT
  textureWriteFunction : TW
  materialWriteFunction : MW

namespace Dependency

variable {GW GT TW MW : Type}

/-- The method `Dependency::setMaterialFunction(materialFunc)`. -/
def setMaterialFunction (r : Statics GW GT TW MW) (materialFunc : MW) : Statics GW GT TW MW :=
  { r with materialWriteFunction := materialFunc }

/-- The method `Dependency::setTextureFunction(textureFunc)`. -/
def setTextureFunction (r : Statics GW GT TW MW) (textureFunc : TW) : Statics GW GT TW MW :=
  { r with textureWriteFunction := textureFunc }

/-- The method `Dependency::setGeometryFunction(geometryFunc, testFunc, priority)`. -/
def setGeometryFunction (r : Statics GW GT TW MW) (geometryFunc : GW) (testFunc : GT)
    (priority : Nat) : Statics GW GT TW MW :=
  let r := { r with geometryTestFunctions := r.geometryTestFunctions.insert priority testFunc }
  { r with geometryWriteFunctions := r.geometryWriteFunctions.insert priority geometryFunc }

/-- The identity of an object held by a `std::shared_ptr`: its address. -/
abbrev ObjectPtr := Nat

/-- The map type `std::unordered_map<std::shared_ptr<T>, uint>`, keyed by object identity. -/
abbrev PtrMap (T : Type) := AList (fun _ : ObjectPtr => T)

/-- The five asset kinds, one for each overload of `hasDependency` and `registerDependency`
(the overloads differ in the type of the pointer they take). -/
inductive Kind where
  | geometry
  | material
  | texture
  | subScene
  | effect
  deriving DecidableEq, Repr

/-- The non-static data members of `Dependency`: one session. The header declares a single
`_currentId` next to the five per-kind tables. -/
structure Session where
  textureDependencies : PtrMap Nat
  materialDependencies : PtrMap Nat
  subSceneDependencies : PtrMap Nat
  geometryDependencies : PtrMap Nat
  effectDependencies : PtrMap Nat
  textureReferences : UIntMap ObjectPtr
  materialReferences : UIntMap ObjectPtr
  subSceneReferences : UIntMap ObjectPtr
  geometryReferences : UIntMap ObjectPtr
  effectReferences : UIntMap ObjectPtr
  currentId : Nat
  options : Option ObjectPtr
  loadedRoot : Option ObjectPtr

/-- The table `_<kind>Dependencies` of a kind. -/
def Session.dependencies (s : Session) : Kind → PtrMap Nat
  | .geometry => s.geometryDependencies
  | .material => s.materialDependencies
  | .texture => s.textureDependencies
  | .subScene => s.subSceneDependencies
  | .effect => s.effectDependencies

/-- An assignment to the table `_<kind>Dependencies` of a kind. -/
def Session.setDependencies (s : Session) (k : Kind) (m : PtrMap Nat) : Session :=
  match k with
  | .geometry => { s with geometryDependencies := m }
  | .material => { s with materialDependencies := m }
  | .texture => { s with textureDependencies := m }
  | .subScene => { s with subSceneDependencies := m }
  | .effect => { s with effectDependencies := m }

/-- Modelled from the spec: `Dependency::create()` / the constructor `Dependency::Dependency()`,
whose body is in `Dependency.cpp`, not among the embedded files. A fresh session has assigned
no id and holds no reference. -/
def create : Session :=
  { textureDependencies := ∅, materialDependencies := ∅, subSceneDependencies := ∅,
    geometryDependencies := ∅, effectDependencies := ∅, textureReferences := ∅,
    materialReferences := ∅, subSceneReferences := ∅, geometryReferences := ∅,
    effectReferences := ∅, currentId := 0, options := none, loadedRoot := none }

/-- Modelled from the spec: the five overloads of `Dependency::hasDependency`, declared in the
header and defined in `Dependency.cpp`, not among the embedded files. "Reports whether this
object instance has already been assigned an id in the current session, tested by
identity". -/
def hasDependency (s : Session) (k : Kind) (object : ObjectPtr) : Bool :=
  count (s.dependencies k) object != 0

/-- Modelled from the spec: the five overloads of `Dependency::registerDependency`, declared in
the header and defined in `Dependency.cpp`, not among the embedded files. "Assigns the next
sequential id for that kind if not already registered, or returns the existing id"; ids of a
kind start at 0 ("register geometry G1 → id 0; register texture T1 → id 0, ids restart per
kind"), so the next id of a kind is the number of objects of that kind registered so far. The
result is the id returned and the session after the call. The specification gives
`_currentId`, which the header declares once for all kinds, no part in this numbering. -/
def registerDependency (s : Session) (k : Kind) (object : ObjectPtr) : Nat × Session :=
  match (s.dependencies k).lookup object with
  | some id => (id, s)
  | none =>
    ((s.dependencies k).keys.length,
     s.setDependencies k ((s.dependencies k).insert object (s.dependencies k).keys.length))

/-- A sequence of `registerDependency` calls, first to last, each on the session left by the
one before. -/
def registerAll (s : Session) (ops : List (Kind × ObjectPtr)) : Session :=
  ops.foldl (fun s op => (registerDependency s op.1 op.2).2) s

end Dependency

end file

/-! ## Theorems -/

namespace render

namespace Effect

variable {V P : Type}

theorem hasTechnique_iff (e : Effect V) (n : String) : e.hasTechnique n = true ↔ n ∈ e.techniques := by
  unfold hasTechnique count
  by_cases h : n ∈ e.techniques <;> simp [h]

theorem hasFallback_iff (e : Effect V) (n : String) : e.hasFallback n = true ↔ n ∈ e.fallback := by
  unfold hasFallback count
  by_cases h : n ∈ e.fallback <;> simp [h]

/-! ### The store after a loop over passes -/

theorem invoke_same (pass : PassCall V → P → P) (c : PassCall V) (p : PassPtr) (s : Store P) :
    invoke pass c p s p = pass c (s p) := by
  simp [invoke]

theorem invoke_other (pass : PassCall V → P → P) (c : PassCall V) (p q : PassPtr) (s : Store P)
    (h : q ≠ p) : invoke pass c p s q = s q := by
  simp [invoke, Function.update_noteq h]

/-- A loop that applies `f` to the object behind each pointer of `l` applies it to the object
at `q` as many times as `q` occurs in `l`. -/
theorem foldl_update_apply (f : P → P) (l : List PassPtr) (s : Store P) (q : PassPtr) :
    l.foldl (fun s p => Function.update s p (f (s p))) s q = f^[l.count q] (s q) := by
  induction l generalizing s with
  | nil => simp
  | cons a l ih =>
    rw [List.foldl_cons, ih]
    by_cases h : a = q
    · subst h
      simp [List.count_cons_self, Function.iterate_succ_apply]
    · have h2 : q ≠ a := fun e => h e.symm
      have hc : List.count q (a :: l) = List.count q l := by
        simp [List.count_cons, h]
      rw [hc, Function.update_noteq h2]

/-- Calls made one after the other on the same pointer. -/
theorem foldl_invoke_calls (pass : PassCall V → P → P) (p : PassPtr) (cs : List (PassCall V))
    (s : Store P) :
    cs.foldl (fun s c => invoke pass c p s) s = Function.update s p (runCalls pass cs (s p)) := by
  induction cs generalizing s with
  | nil => simp [runCalls]
  | cons c cs ih =>
    rw [List.foldl_cons, ih]
    simp [invoke, runCalls]

theorem runCalls_append (pass : PassCall V → P → P) (as bs : List (PassCall V)) (x : P) :
    runCalls pass (as ++ bs) x = runCalls pass bs (runCalls pass as x) := by
  simp [runCalls, List.foldl_append]

theorem foldl_map_invoke {α : Type} (pass : PassCall V → P → P) (p : PassPtr) (g : α → PassCall V)
    (l : List α) (s : Store P) :
    l.foldl (fun s a => invoke pass (g a) p s) s
      = Function.update s p (runCalls pass (l.map g) (s p)) := by
  rw [← foldl_invoke_calls, List.foldl_map]

/-- The closures of an effect run on one pass are the calls `replayCalls`, made on that pass. -/
theorem replayOnPass_eq (pass : PassCall V → P → P) (e : Effect V) (p : PassPtr) (s : Store P) :
    replayOnPass pass e p s = Function.update s p (runCalls pass (replayCalls e) (s p)) := by
  unfold replayOnPass replayCalls uniformCalls attributeCalls indexCall macroCalls
  simp only [setUniformOnPass, setVertexAttributeOnPass, macroOnPass, setIndexBufferOnPass]
  rw [foldl_map_invoke pass p (fun f : String × V => PassCall.setUniform f.1 f.2),
    foldl_map_invoke pass p
      (fun f : String × Nat × List Nat => PassCall.setVertexAttribute f.1 f.2.1 f.2.2)]
  cases hi : e.indexFunction with
  | none =>
    simp only [Option.map_none', Option.toList_none, List.append_nil]
    rw [foldl_map_invoke pass p (MacroFunction.toCall)]
    simp [runCalls_append]
  | some idx =>
    simp only [Option.map_some', Option.toList_some]
    rw [foldl_map_invoke pass p (MacroFunction.toCall)]
    simp [runCalls_append, invoke, runCalls]

/-- The store after the replay loop of `addTechnique`. -/
theorem foldl_replayOnPass_apply (pass : PassCall V → P → P) (e : Effect V) (passes : Technique)
    (s : Store P) (q : PassPtr) :
    passes.foldl (fun s p => replayOnPass pass e p s) s q
      = (runCalls pass (replayCalls e))^[passes.count q] (s q) := by
  have h : (fun (s : Store P) p => replayOnPass pass e p s)
      = fun s p => Function.update s p (runCalls pass (replayCalls e) (s p)) := by
    funext s p
    exact replayOnPass_eq pass e p s
  rw [h, foldl_update_apply]

/-- The store after the double loop of a mutator. -/
theorem forEachPass_apply (pass : PassCall V → P → P) (c : PassCall V) (ts : StringMap Technique)
    (s : Store P) (q : PassPtr) :
    forEachPass pass c ts s q = (pass c)^[occurrences ts q] (s q) := by
  unfold forEachPass occurrences
  generalize ts.entries = l
  induction l generalizing s with
  | nil => simp
  | cons t l ih =>
    rw [List.foldl_cons, ih]
    have h : t.2.foldl (fun s p => invoke pass c p s) s q = (pass c)^[t.2.count q] (s q) :=
      foldl_update_apply (pass c) t.2 s q
    rw [h, List.map_cons, List.sum_cons, Nat.add_comm, Function.iterate_add_apply]

/-- C1: when `hasTechnique(name)` holds, both overloads of `addTechnique` throw
`std::logic_error`, for every pass list and fallback name; the technique stored under `name`
(the pass list and the pass objects) is the one stored before the call. -/
theorem addTechnique_duplicate_throws (pass : PassCall V → P → P) (e : Effect V) (s : Store P)
    (name : String) (passes : Technique) (fallback : String)
    (h : e.hasTechnique name = true) :
    (addTechnique pass e s name passes).thrown
        = some (.logic_error ("A technique named '" ++ name ++ "' already exists."))
      ∧ (addTechniqueWithFallback pass e s name passes fallback).thrown
        = some (.logic_error ("A technique named '" ++ name ++ "' already exists."))
      ∧ (addTechnique pass e s name passes).effect.technique name = e.technique name
      ∧ (addTechniqueWithFallback pass e s name passes fallback).effect.technique name
        = e.technique name
      ∧ (addTechnique pass e s name passes).effect.techniques = e.techniques
      ∧ (addTechniqueWithFallback pass e s name passes fallback).effect.techniques
        = e.techniques
      ∧ (addTechnique pass e s name passes).store = s
      ∧ (addTechniqueWithFallback pass e s name passes fallback).store = s := by
  have hc : (count e.techniques name != 0) = true := h
  simp [addTechniqueWithFallback, addTechnique, hc, technique]

/-- C1, at an effect that already holds the technique "A". -/
theorem addTechnique_duplicate_throws_witness :
    effectA.hasTechnique "A" = true
      ∧ (addTechnique tracePass effectA freshStore "A" [1]).thrown
        = some (.logic_error ("A technique named '" ++ "A" ++ "' already exists.")) :=
  ⟨by decide, (addTechnique_duplicate_throws tracePass effectA freshStore "A" [1] "B"
    (by decide)).1⟩

/-- C2: the three-argument `addTechnique` writes `_fallback[name]` before the two-argument
overload it calls checks for a duplicate. Re-adding "A" with the fallback "C" throws, and yet
the fallback of "A" has changed from "B" to "C"; re-adding a technique that had no fallback
throws and leaves it with one. The techniques map and the passes are untouched. -/
theorem addTechniqueWithFallback_duplicate_overwrites_fallback :
    effectAB.hasTechnique "A" = true
      ∧ effectAB.getFallback "A" = .ok "B"
      ∧ (addTechniqueWithFallback tracePass effectAB freshStore "A" [1] "C").thrown
        = some (.logic_error "A technique named 'A' already exists.")
      ∧ (addTechniqueWithFallback tracePass effectAB freshStore "A" [1] "C").effect.getFallback "A"
        = .ok "C"
      ∧ effectA.hasFallback "A" = false
      ∧ (addTechniqueWithFallback tracePass effectA freshStore "A" [1] "C").thrown
        = some (.logic_error "A technique named 'A' already exists.")
      ∧ (addTechniqueWithFallback tracePass effectA freshStore "A" [1] "C").effect.hasFallback "A"
        = true
      ∧ (addTechniqueWithFallback tracePass effectAB freshStore "A" [1] "C").effect.techniques
        = effectAB.techniques :=
  ⟨by decide, rfl, by decide, rfl, by decide, by decide, by decide, rfl⟩

/-! ### What the mutators record -/

theorem mutate_techniques (pass : PassCall V → P → P) (e : Effect V) (s : Store P)
    (c : PassCall V) :
    (mutate pass e s c).1.techniques = e.techniques
      ∧ (mutate pass e s c).1.fallback = e.fallback := by
  cases c <;> exact ⟨rfl, rfl⟩

theorem mutate_store (pass : PassCall V → P → P) (e : Effect V) (s : Store P) (c : PassCall V) :
    (mutate pass e s c).2 = forEachPass pass c e.techniques s := by
  cases c <;> rfl

theorem mutate_calls (pass : PassCall V → P → P) (e : Effect V) (s : Store P) (c : PassCall V) :
    uniformCalls (mutate pass e s c).1 = uniformCalls e ++ [c].filter isUniform
      ∧ attributeCalls (mutate pass e s c).1 = attributeCalls e ++ [c].filter isAttribute
      ∧ indexCall (mutate pass e s c).1 = (([c].filter isIndex).getLast?).or (indexCall e)
      ∧ macroCalls (mutate pass e s c).1 = macroCalls e ++ [c].filter isMacro := by
  cases c <;>
    simp [mutate, setUniform, setVertexAttribute, setIndexBuffer, define, defineValue, undefine,
      uniformCalls, attributeCalls, indexCall, macroCalls, isUniform, isAttribute, isIndex,
      isMacro, MacroFunction.toCall]

theorem mutateAll_cons (pass : PassCall V → P → P) (e : Effect V) (s : Store P) (c : PassCall V)
    (ms : List (PassCall V)) :
    mutateAll pass e s (c :: ms) = mutateAll pass (mutate pass e s c).1 (mutate pass e s c).2 ms := by
  simp [mutateAll]

theorem mutateAll_techniques (pass : PassCall V → P → P) (e : Effect V) (s : Store P)
    (ms : List (PassCall V)) :
    (mutateAll pass e s ms).1.techniques = e.techniques
      ∧ (mutateAll pass e s ms).1.fallback = e.fallback := by
  induction ms generalizing e s with
  | nil => exact ⟨rfl, rfl⟩
  | cons c ms ih =>
    rw [mutateAll_cons]
    obtain ⟨h1, h2⟩ := ih (mutate pass e s c).1 (mutate pass e s c).2
    obtain ⟨h3, h4⟩ := mutate_techniques pass e s c
    exact ⟨h1.trans h3, h2.trans h4⟩

/-- The closures recorded by a sequence of mutators: each list grows by the calls of its own
kind, in their order; the index function is the last `setIndexBuffer`, if there was one. -/
theorem mutateAll_calls (pass : PassCall V → P → P) (e : Effect V) (s : Store P)
    (ms : List (PassCall V)) :
    uniformCalls (mutateAll pass e s ms).1 = uniformCalls e ++ ms.filter isUniform
      ∧ attributeCalls (mutateAll pass e s ms).1 = attributeCalls e ++ ms.filter isAttribute
      ∧ indexCall (mutateAll pass e s ms).1 = ((ms.filter isIndex).getLast?).or (indexCall e)
      ∧ macroCalls (mutateAll pass e s ms).1 = macroCalls e ++ ms.filter isMacro := by
  induction ms generalizing e s with
  | nil => simp [mutateAll]
  | cons c ms ih =>
    rw [mutateAll_cons]
    obtain ⟨h1, h2, h3, h4⟩ := ih (mutate pass e s c).1 (mutate pass e s c).2
    obtain ⟨g1, g2, g3, g4⟩ := mutate_calls pass e s c
    have hf : ∀ f : PassCall V → Bool, (c :: ms).filter f = [c].filter f ++ ms.filter f := by
      intro f
      rw [← List.filter_append]
      rfl
    refine ⟨?_, ?_, ?_, ?_⟩
    · rw [h1, g1, hf, List.append_assoc]
    · rw [h2, g2, hf, List.append_assoc]
    · rw [h3, g3, hf, List.getLast?_append, Option.or_assoc]
    · rw [h4, g4, hf, List.append_assoc]

/-- C3, as stated, fails: `addTechnique` does not replay the history in the order in which it
was applied. After `define("A")` then `setUniform("u", 1)`, a new pass receives `setUniform`
first and `define` second; after two `setIndexBuffer` calls it receives only the second. -/
theorem addTechnique_replay_is_not_the_history :
    (addTechnique tracePass (mutateAll tracePass (create "fx") freshStore macroThenUniform).1
        (mutateAll tracePass (create "fx") freshStore macroThenUniform).2 "t" [0]).thrown = none
      ∧ (addTechnique tracePass (mutateAll tracePass (create "fx") freshStore macroThenUniform).1
        (mutateAll tracePass (create "fx") freshStore macroThenUniform).2 "t" [0]).store 0
        = [.setUniform "u" 1, .defineBool "A"]
      ∧ (addTechnique tracePass (mutateAll tracePass (create "fx") freshStore macroThenUniform).1
        (mutateAll tracePass (create "fx") freshStore macroThenUniform).2 "t" [0]).store 0
        ≠ runCalls tracePass macroThenUniform
            ((mutateAll tracePass (create "fx") freshStore macroThenUniform).2 0)
      ∧ (addTechnique tracePass (mutateAll tracePass (create "fx") freshStore twoIndexBuffers).1
        (mutateAll tracePass (create "fx") freshStore twoIndexBuffers).2 "t" [0]).store 0
        = [.setIndexBuffer [2, 1, 0]]
      ∧ (addTechnique tracePass (mutateAll tracePass (create "fx") freshStore twoIndexBuffers).1
        (mutateAll tracePass (create "fx") freshStore twoIndexBuffers).2 "t" [0]).store 0
        ≠ runCalls tracePass twoIndexBuffers
            ((mutateAll tracePass (create "fx") freshStore twoIndexBuffers).2 0) := by
  refine ⟨by decide, by decide, by decide, by decide, by decide⟩

/-- C3, amended: after any sequence `ms` of mutators applied to an effect, a successful
`addTechnique(name, passes)` makes on every pass, once for each slot of `passes` holding it,
the recorded calls grouped by kind: all `setUniform` calls in their order, then all
`setVertexAttribute` calls in their order, then the last `setIndexBuffer` only, then all
`define` / `undefine` calls in their order (each group starting with what the effect had
recorded before `ms`). Passes outside `passes` receive nothing. -/
theorem addTechnique_replays_by_kind (pass : PassCall V → P → P) (e : Effect V) (s : Store P)
    (ms : List (PassCall V)) (name : String) (passes : Technique)
    (h : e.hasTechnique name = false) :
    (addTechnique pass (mutateAll pass e s ms).1 (mutateAll pass e s ms).2 name passes).thrown
        = none
      ∧ (∀ q, (addTechnique pass (mutateAll pass e s ms).1 (mutateAll pass e s ms).2 name
            passes).store q
          = (runCalls pass (replayCalls (mutateAll pass e s ms).1))^[passes.count q]
              ((mutateAll pass e s ms).2 q))
      ∧ replayCalls (mutateAll pass e s ms).1
          = (uniformCalls e ++ ms.filter isUniform)
            ++ (attributeCalls e ++ ms.filter isAttribute)
            ++ (((ms.filter isIndex).getLast?).or (indexCall e)).toList
            ++ (macroCalls e ++ ms.filter isMacro) := by
  have ht := (mutateAll_techniques pass e s ms).1
  have hn : ¬ name ∈ e.techniques := by
    intro hm
    rw [(hasTechnique_iff e name).mpr hm] at h
    exact Bool.noConfusion h
  have hc : (count (mutateAll pass e s ms).1.techniques name != 0) = false := by
    rw [ht]
    simp [count, hn]
  obtain ⟨h1, h2, h3, h4⟩ := mutateAll_calls pass e s ms
  refine ⟨?_, ?_, ?_⟩
  · simp [addTechnique, hc]
  · intro q
    simp only [addTechnique, hc, Bool.false_eq_true, if_false]
    exact foldl_replayOnPass_apply pass _ passes _ q
  · unfold replayCalls
    rw [h1, h2, h3, h4]

/-- C3 amended, at a fresh effect after `define("A")` then `setUniform("u", 1)`. -/
theorem addTechnique_replays_by_kind_witness :
    (create "fx" : Effect Nat).hasTechnique "t" = false
      ∧ replayCalls (mutateAll tracePass (create "fx") freshStore macroThenUniform).1
          = (uniformCalls (create "fx") ++ macroThenUniform.filter isUniform)
            ++ (attributeCalls (create "fx") ++ macroThenUniform.filter isAttribute)
            ++ (((macroThenUniform.filter isIndex).getLast?).or
                (indexCall (create "fx" : Effect Nat))).toList
            ++ (macroCalls (create "fx") ++ macroThenUniform.filter isMacro) :=
  ⟨by decide, (addTechnique_replays_by_kind tracePass (create "fx") freshStore macroThenUniform
    "t" [0] (by decide)).2.2⟩

/-! ### A uniform set on the effect reaches a technique added later -/

/-- Calls other than `setUniform` on `n` keep the value a pass reports for `n`. -/
theorem runCalls_keeps_uniform (pass : PassCall V → P → P) (uniform : P → String → Option V)
    (hkeep : ∀ c x n, (∀ w, c ≠ PassCall.setUniform n w) → uniform (pass c x) n = uniform x n)
    (n : String) (cs : List (PassCall V)) (hcs : ∀ c ∈ cs, ∀ w, c ≠ PassCall.setUniform n w)
    (x : P) : uniform (runCalls pass cs x) n = uniform x n := by
  induction cs generalizing x with
  | nil => rfl
  | cons c cs ih =>
    have h1 : runCalls pass (c :: cs) x = runCalls pass cs (pass c x) := rfl
    rw [h1, ih (fun d hd => hcs d (List.mem_cons_of_mem c hd)),
      hkeep c x n (hcs c (List.mem_cons_self c cs))]

/-- When the last recorded `setUniform` on `n` has the value `v`, replaying the recorded
uniforms leaves `n` at `v`. -/
theorem runCalls_uniforms (pass : PassCall V → P → P) (uniform : P → String → Option V)
    (hset : ∀ x n v, uniform (pass (PassCall.setUniform n v) x) n = some v)
    (hkeep : ∀ c x n, (∀ w, c ≠ PassCall.setUniform n w) → uniform (pass c x) n = uniform x n)
    (n : String) (v : V) (l : List (String × V))
    (hl : (l.filter (fun f => f.1 == n)).getLast? = some (n, v)) (x : P) :
    uniform (runCalls pass (l.map (fun f => PassCall.setUniform f.1 f.2)) x) n = some v := by
  induction l using List.reverseRecOn with
  | nil => simp at hl
  | append_singleton l a ih =>
    rw [List.map_append, runCalls_append]
    have h1 : runCalls pass ([a].map (fun f => PassCall.setUniform f.1 f.2))
        (runCalls pass (l.map (fun f => PassCall.setUniform f.1 f.2)) x)
        = pass (PassCall.setUniform a.1 a.2)
            (runCalls pass (l.map (fun f => PassCall.setUniform f.1 f.2)) x) := rfl
    rw [h1]
    by_cases ha : a.1 = n
    · have h2 : (List.filter (fun f => f.1 == n) (l ++ [a])).getLast? = some a := by
        simp [List.filter_append, List.filter_cons, ha]
      rw [h2] at hl
      have h3 : a = (n, v) := Option.some.inj hl
      subst h3
      exact hset _ n v
    · have h2 : List.filter (fun f => f.1 == n) (l ++ [a]) = List.filter (fun f => f.1 == n) l := by
        simp [List.filter_append, List.filter_cons, ha]
      rw [h2] at hl
      rw [hkeep _ _ n (fun w hw => ha (by injection hw))]
      exact ih hl

/-- Replaying all the closures of an effect leaves `n` at the value of the last recorded
`setUniform` on `n`. -/
theorem replay_uniform (pass : PassCall V → P → P) (uniform : P → String → Option V)
    (hset : ∀ x n v, uniform (pass (PassCall.setUniform n v) x) n = some v)
    (hkeep : ∀ c x n, (∀ w, c ≠ PassCall.setUniform n w) → uniform (pass c x) n = uniform x n)
    (n : String) (v : V) (e : Effect V)
    (hl : (e.uniformFunctions.filter (fun f => f.1 == n)).getLast? = some (n, v)) (x : P) :
    uniform (runCalls pass (replayCalls e) x) n = some v := by
  unfold replayCalls
  rw [List.append_assoc, List.append_assoc, runCalls_append]
  rw [runCalls_keeps_uniform pass uniform hkeep n]
  · exact runCalls_uniforms pass uniform hset hkeep n v e.uniformFunctions hl x
  · intro c hc w hw
    subst hw
    simp only [List.mem_append, attributeCalls, indexCall, macroCalls, List.mem_map,
      Option.mem_toList, Option.mem_def, Option.map_eq_some'] at hc
    rcases hc with ⟨f, _, hf⟩ | ⟨i, _, hi⟩ | ⟨m, _, hm⟩
    · exact PassCall.noConfusion hf
    · exact PassCall.noConfusion hi
    · cases m <;> exact PassCall.noConfusion hm

/-- A call other than `setUniform` on `n` leaves the recorded `setUniform` closures on `n` as
they are. -/
theorem step_uniformFunctions (pass : PassCall V → P → P) (e : Effect V) (s : Store P)
    (n : String) (c : Call V) (hc : ∀ w, c ≠ Call.mutate (PassCall.setUniform n w)) :
    (step pass e s c).effect.uniformFunctions.filter (fun f => f.1 == n)
      = e.uniformFunctions.filter (fun f => f.1 == n) := by
  cases c with
  | mutate m =>
    cases m with
    | setUniform n2 w =>
      have hne : n2 ≠ n := by
        intro h
        subst h
        exact hc w rfl
      simp [step, mutate, setUniform, List.filter_append, List.filter_cons, hne]
    | setVertexAttribute _ _ _ => rfl
    | setIndexBuffer _ => rfl
    | defineBool _ => rfl
    | defineInt _ _ => rfl
    | undefine _ => rfl
  | addTechnique name passes =>
    simp only [step, addTechnique]
    split <;> rfl
  | addTechniqueWithFallback name passes fb =>
    simp only [step, addTechniqueWithFallback, addTechnique]
    split <;> rfl
  | removeTechnique name =>
    simp only [step, removeTechnique]
    split <;> rfl

theorem run_cons (pass : PassCall V → P → P) (e : Effect V) (s : Store P) (c : Call V)
    (cs : List (Call V)) :
    run pass e s (c :: cs) = run pass (step pass e s c).effect (step pass e s c).store cs := by
  simp [run]

theorem run_uniformFunctions (pass : PassCall V → P → P) (e : Effect V) (s : Store P)
    (n : String) (cs : List (Call V))
    (hcs : ∀ c ∈ cs, ∀ w, c ≠ Call.mutate (PassCall.setUniform n w)) :
    (run pass e s cs).1.uniformFunctions.filter (fun f => f.1 == n)
      = e.uniformFunctions.filter (fun f => f.1 == n) := by
  induction cs generalizing e s with
  | nil => rfl
  | cons c cs ih =>
    rw [run_cons, ih _ _ (fun d hd => hcs d (List.mem_cons_of_mem c hd)),
      step_uniformFunctions pass e s n c (hcs c (List.mem_cons_self c cs))]

/-- C4: let a pass report for a uniform the value of the last `setUniform` it received for it
(`hset`, `hkeep`: the contract of `Pass`, which is declared outside the embedded files).
After `setUniform(n, v)` on any effect, followed by any calls other than a `setUniform` on
`n`, a successful `addTechnique(t, passes)` stores `passes` under `t` and every pass of it
reports `v` for `n`. -/
theorem setUniform_reaches_added_technique (pass : PassCall V → P → P)
    (uniform : P → String → Option V)
    (hset : ∀ x n v, uniform (pass (PassCall.setUniform n v) x) n = some v)
    (hkeep : ∀ c x n, (∀ w, c ≠ PassCall.setUniform n w) → uniform (pass c x) n = uniform x n)
    (e : Effect V) (s : Store P) (n : String) (v : V) (cs : List (Call V))
    (hcs : ∀ c ∈ cs, ∀ w, c ≠ Call.mutate (PassCall.setUniform n w))
    (t : String) (passes : Technique)
    (hok : (addTechnique pass
        (run pass (setUniform pass e s n v).1 (setUniform pass e s n v).2 cs).1
        (run pass (setUniform pass e s n v).1 (setUniform pass e s n v).2 cs).2
        t passes).thrown = none) :
    (addTechnique pass
        (run pass (setUniform pass e s n v).1 (setUniform pass e s n v).2 cs).1
        (run pass (setUniform pass e s n v).1 (setUniform pass e s n v).2 cs).2
        t passes).effect.technique t = .ok passes
      ∧ ∀ p ∈ passes, uniform ((addTechnique pass
        (run pass (setUniform pass e s n v).1 (setUniform pass e s n v).2 cs).1
        (run pass (setUniform pass e s n v).1 (setUniform pass e s n v).2 cs).2
        t passes).store p) n = some v := by
  generalize hst : run pass (setUniform pass e s n v).1 (setUniform pass e s n v).2 cs = st at hok ⊢
  have hl : (st.1.uniformFunctions.filter (fun f => f.1 == n)).getLast? = some (n, v) := by
    rw [← hst, run_uniformFunctions pass _ _ n cs hcs]
    simp [setUniform, List.filter_append, List.filter_cons]
  have hc : (count st.1.techniques t != 0) = false := by
    cases hb : (count st.1.techniques t != 0) with
    | false => rfl
    | true =>
      simp [addTechnique, hb] at hok
  refine ⟨?_, ?_⟩
  · simp [addTechnique, hc, technique]
  · intro p hp
    simp only [addTechnique, hc, Bool.false_eq_true, if_false]
    rw [foldl_replayOnPass_apply]
    obtain ⟨k, hk⟩ : ∃ k, passes.count p = k + 1 :=
      ⟨passes.count p - 1, by have := List.count_pos_iff.mpr hp; omega⟩
    rw [hk, Function.iterate_succ_apply']
    exact replay_uniform pass uniform hset hkeep n v st.1 hl _

/-- C4, the example of the specification: an effect with no technique, `setUniform("color",
1.0f)`, then `addTechnique("default", passes)` with two passes; both report 1.0f for "color". -/
theorem setUniform_reaches_added_technique_witness :
    (addTechnique uniformPass
        (run uniformPass (setUniform uniformPass (create "fx") blankStore "color" oneFloat).1
          (setUniform uniformPass (create "fx") blankStore "color" oneFloat).2 []).1
        (run uniformPass (setUniform uniformPass (create "fx") blankStore "color" oneFloat).1
          (setUniform uniformPass (create "fx") blankStore "color" oneFloat).2 []).2
        "default" [0, 1]).thrown = none
      ∧ ∀ p ∈ [0, 1], uniformOf ((addTechnique uniformPass
        (run uniformPass (setUniform uniformPass (create "fx") blankStore "color" oneFloat).1
          (setUniform uniformPass (create "fx") blankStore "color" oneFloat).2 []).1
        (run uniformPass (setUniform uniformPass (create "fx") blankStore "color" oneFloat).1
          (setUniform uniformPass (create "fx") blankStore "color" oneFloat).2 []).2
        "default" [0, 1]).store p) "color" = some oneFloat :=
  ⟨by decide,
    (setUniform_reaches_added_technique uniformPass uniformOf
      (by intro x n v; simp [uniformPass, uniformOf])
      (by
        intro c x n hc
        cases c with
        | setUniform m w =>
          have hne : m ≠ n := by
            intro h
            subst h
            exact hc w rfl
          simp [uniformPass, uniformOf, List.find?_cons, hne]
        | setVertexAttribute _ _ _ => rfl
        | setIndexBuffer _ => rfl
        | defineBool _ => rfl
        | defineInt _ _ => rfl
        | undefine _ => rfl)
      (create "fx") blankStore "color" oneFloat []
      (by intro c hc; cases hc)
      "default" [0, 1] (by decide)).2⟩

/-! ### The mutators and the registered techniques -/

theorem count_le_sum_of_mem (q : PassPtr) (l : List (Sigma fun _ : String => Technique))
    (x : Sigma fun _ : String => Technique) (hx : x ∈ l) :
    x.2.count q ≤ (l.map (fun technique => technique.2.count q)).sum := by
  induction l with
  | nil => cases hx
  | cons a l ih =>
    rw [List.map_cons, List.sum_cons]
    rcases List.mem_cons.mp hx with h | h
    · subst h
      exact Nat.le_add_right _ _
    · exact Nat.le_trans (ih h) (Nat.le_add_left _ _)

/-- A pass of a registered technique occupies at least one slot. -/
theorem occurrences_pos (e : Effect V) (t : String) (ps : Technique)
    (ht : e.technique t = .ok ps) (p : PassPtr) (hp : p ∈ ps) :
    1 ≤ occurrences e.techniques p := by
  have hl : e.techniques.lookup t = some ps := by
    unfold technique at ht
    cases h : e.techniques.lookup t with
    | none => rw [h] at ht; cases ht
    | some x =>
      rw [h] at ht
      injection ht with h2
      rw [h2]
  have hm : (⟨t, ps⟩ : Sigma fun _ : String => Technique) ∈ e.techniques.entries :=
    AList.mem_lookup_iff.mp hl
  have h1 := count_le_sum_of_mem p e.techniques.entries ⟨t, ps⟩ hm
  have h2 : 0 < ps.count p := List.count_pos_iff.mpr hp
  unfold occurrences
  exact Nat.lt_of_lt_of_le h2 h1

theorem occurrences_createWithPasses (passes : Technique) (n : String) (q : PassPtr) :
    occurrences (createWithPasses passes n : Effect V).techniques q = passes.count q := by
  simp [occurrences, createWithPasses, create, AList.insert_entries]

/-- C5, as stated, fails when a pass is shared: with the pass 0 held by both "default" and
"alt", `setUniform("u", 1)` calls `setUniform` on it twice, not once. -/
theorem mutate_twice_on_shared_pass :
    effectShared.technique "default" = .ok [0]
      ∧ effectShared.technique "alt" = .ok [0]
      ∧ (mutate tracePass effectShared freshStore (.setUniform "u" 1)).2 0
        = [.setUniform "u" 1, .setUniform "u" 1]
      ∧ (mutate tracePass effectShared freshStore (.setUniform "u" 1)).2 0
        ≠ tracePass (.setUniform "u" 1) (freshStore 0) :=
  ⟨rfl, rfl, by decide, by decide⟩

/-- C5, amended: a mutator `m` of an effect (`setUniform`, `setVertexAttribute`,
`setIndexBuffer`, `define(name)`, `define(name, value)`, `undefine`) calls `m` on every pass of
every registered technique once for each slot of the registered pass lists that holds the pass
(every pass of a technique holds at least one slot), and on no other pass; the techniques map
and the fallback map are unchanged. For the "default" technique installed by
`Effect::create(passes, name)` the slots are those of `passes`. -/
theorem mutate_applies_once_per_slot (pass : PassCall V → P → P) (e : Effect V) (s : Store P)
    (c : PassCall V) :
    (mutate pass e s c).1.techniques = e.techniques
      ∧ (mutate pass e s c).1.fallback = e.fallback
      ∧ (∀ q, (mutate pass e s c).2 q = (pass c)^[occurrences e.techniques q] (s q))
      ∧ (∀ t ps p, e.technique t = .ok ps ∧ p ∈ ps ∧ occurrences e.techniques p = 1
          → (mutate pass e s c).2 p = pass c (s p))
      ∧ (∀ t ps p, e.technique t = .ok ps ∧ p ∈ ps → 1 ≤ occurrences e.techniques p)
      ∧ (∀ passes n q, (mutate pass (createWithPasses passes n) s c).2 q
          = (pass c)^[passes.count q] (s q)) := by
  have hq : ∀ (e : Effect V) q,
      (mutate pass e s c).2 q = (pass c)^[occurrences e.techniques q] (s q) := by
    intro e q
    rw [mutate_store, forEachPass_apply]
  refine ⟨(mutate_techniques pass e s c).1, (mutate_techniques pass e s c).2, hq e, ?_, ?_, ?_⟩
  · rintro t ps p ⟨_, _, h1⟩
    rw [hq, h1]
    rfl
  · rintro t ps p ⟨ht, hp⟩
    exact occurrences_pos e t ps ht p hp
  · intro passes n q
    rw [hq, occurrences_createWithPasses]

/-! ### Lookups -/

/-- C6: `technique(name)` throws exactly when `hasTechnique(name)` is false and `fallback(name)`
throws exactly when `hasFallback(name)` is false; the exception is `std::invalid_argument`; a
call that does not throw returns what the map stores under `name`. -/
theorem lookup_throws_iff_absent (e : Effect V) (name : String) :
    ((∃ err, e.technique name = .error err) ↔ e.hasTechnique name = false)
      ∧ ((∃ err, e.getFallback name = .error err) ↔ e.hasFallback name = false)
      ∧ (∀ err, e.technique name = .error err
          → err = .invalid_argument ("techniqueName = " ++ name))
      ∧ (∀ err, e.getFallback name = .error err
          → err = .invalid_argument ("techniqueName = " ++ name))
      ∧ (∀ t, e.technique name = .ok t ↔ e.techniques.lookup name = some t)
      ∧ (∀ f, e.getFallback name = .ok f ↔ e.fallback.lookup name = some f) := by
  have h1 : e.hasTechnique name = false ↔ e.techniques.lookup name = none := by
    rw [AList.lookup_eq_none, ← hasTechnique_iff]
    simp
  have h2 : e.hasFallback name = false ↔ e.fallback.lookup name = none := by
    rw [AList.lookup_eq_none, ← hasFallback_iff]
    simp
  rw [h1, h2]
  unfold technique getFallback
  cases e.techniques.lookup name <;> cases e.fallback.lookup name <;> simp

/-! ### Removing a technique -/

/-- C7: when `hasTechnique(name)` holds, `removeTechnique(name)` does not throw; afterwards
`hasTechnique(name)` and `hasFallback(name)` are false, `technique(name)` and `fallback(name)`
throw, and the entries of both maps under every other name are those of before, as are the
passes. -/
theorem removeTechnique_present (e : Effect V) (s : Store P) (name : String)
    (h : e.hasTechnique name = true) :
    (removeTechnique e s name).thrown = none
      ∧ (removeTechnique e s name).effect.hasTechnique name = false
      ∧ (removeTechnique e s name).effect.hasFallback name = false
      ∧ (removeTechnique e s name).effect.technique name
          = .error (.invalid_argument ("techniqueName = " ++ name))
      ∧ (removeTechnique e s name).effect.getFallback name
          = .error (.invalid_argument ("techniqueName = " ++ name))
      ∧ (∀ other, other ≠ name →
          (removeTechnique e s name).effect.techniques.lookup other = e.techniques.lookup other
          ∧ (removeTechnique e s name).effect.fallback.lookup other = e.fallback.lookup other)
      ∧ (removeTechnique e s name).store = s := by
  have hm : name ∈ e.techniques := (hasTechnique_iff e name).mp h
  have hc : (count e.techniques name == 0) = false := by
    simp [count, hm]
  have he : (removeTechnique e s name).effect
      = { e with techniques := e.techniques.erase name, fallback := e.fallback.erase name } := by
    simp [removeTechnique, hc]
  refine ⟨by simp [removeTechnique, hc], ?_, ?_, ?_, ?_, ?_, by simp [removeTechnique, hc]⟩
  · rw [he]
    simp [hasTechnique, count, AList.mem_erase]
  · rw [he]
    simp [hasFallback, count, AList.mem_erase]
  · rw [he]
    simp [technique, AList.lookup_erase]
  · rw [he]
    simp [getFallback, AList.lookup_erase]
  · intro other ho
    rw [he]
    exact ⟨AList.lookup_erase_ne ho, AList.lookup_erase_ne ho⟩

/-- C7, at an effect holding the technique "A" with the fallback "B". -/
theorem removeTechnique_present_witness :
    effectAB.hasTechnique "A" = true
      ∧ (removeTechnique effectAB freshStore "A").thrown = none
      ∧ (removeTechnique effectAB freshStore "A").effect.hasTechnique "A" = false
      ∧ (removeTechnique effectAB freshStore "A").effect.hasFallback "A" = false :=
  ⟨by decide, (removeTechnique_present effectAB freshStore "A" (by decide)).1,
    (removeTechnique_present effectAB freshStore "A" (by decide)).2.1,
    (removeTechnique_present effectAB freshStore "A" (by decide)).2.2.1⟩

/-- C8: when `hasTechnique(name)` is false, `removeTechnique(name)` throws `std::logic_error`
and leaves the techniques map, the fallback map and the passes as they were. -/
theorem removeTechnique_absent_throws (e : Effect V) (s : Store P) (name : String)
    (h : e.hasTechnique name = false) :
    (removeTechnique e s name).thrown
        = some (.logic_error ("The technique named '" ++ name ++ "' does not exist."))
      ∧ (removeTechnique e s name).effect.techniques = e.techniques
      ∧ (removeTechnique e s name).effect.fallback = e.fallback
      ∧ (removeTechnique e s name).store = s := by
  have hm : ¬ name ∈ e.techniques := by
    intro hm
    rw [(hasTechnique_iff e name).mpr hm] at h
    exact Bool.noConfusion h
  have hc : (count e.techniques name == 0) = true := by
    simp [count, hm]
  simp [removeTechnique, hc]

/-- C8, the example of the specification: `removeTechnique("ghost")` on an effect to which
"ghost" was never added. -/
theorem removeTechnique_absent_throws_witness :
    effectAB.hasTechnique "ghost" = false
      ∧ (removeTechnique effectAB freshStore "ghost").thrown
        = some (.logic_error ("The technique named '" ++ "ghost" ++ "' does not exist.")) :=
  ⟨by decide, (removeTechnique_absent_throws effectAB freshStore "ghost" (by decide)).1⟩

/-! ### Adding a technique with a fallback -/

/-- C9: when `hasTechnique(name)` is false, `addTechnique(name, ps, fb)` does not throw;
afterwards `hasTechnique(name)` holds, `technique(name)` is `ps` (same passes, same order),
`hasFallback(name)` holds and `fallback(name)` is `fb`; the entries of both maps under every
other name are those of before. -/
theorem addTechniqueWithFallback_fresh (pass : PassCall V → P → P) (e : Effect V) (s : Store P)
    (name : String) (ps : Technique) (fb : String) (h : e.hasTechnique name = false) :
    (addTechniqueWithFallback pass e s name ps fb).thrown = none
      ∧ (addTechniqueWithFallback pass e s name ps fb).effect.hasTechnique name = true
      ∧ (addTechniqueWithFallback pass e s name ps fb).effect.technique name = .ok ps
      ∧ (∀ ts, (addTechniqueWithFallback pass e s name ps fb).effect.technique name = .ok ts
          → ts.length = ps.length ∧ ∀ i, ts.get? i = ps.get? i)
      ∧ (addTechniqueWithFallback pass e s name ps fb).effect.hasFallback name = true
      ∧ (addTechniqueWithFallback pass e s name ps fb).effect.getFallback name = .ok fb
      ∧ (∀ other, other ≠ name →
          (addTechniqueWithFallback pass e s name ps fb).effect.techniques.lookup other
            = e.techniques.lookup other
          ∧ (addTechniqueWithFallback pass e s name ps fb).effect.fallback.lookup other
            = e.fallback.lookup other) := by
  have hm : ¬ name ∈ e.techniques := by
    intro hm
    rw [(hasTechnique_iff e name).mpr hm] at h
    exact Bool.noConfusion h
  have hc : (count e.techniques name != 0) = false := by
    simp [count, hm]
  have he : (addTechniqueWithFallback pass e s name ps fb).effect
      = { e with techniques := e.techniques.insert name ps,
                 fallback := e.fallback.insert name fb } := by
    simp [addTechniqueWithFallback, addTechnique, hc]
  have ht : (addTechniqueWithFallback pass e s name ps fb).effect.technique name = .ok ps := by
    rw [he]
    simp [technique, AList.lookup_insert]
  refine ⟨by simp [addTechniqueWithFallback, addTechnique, hc], ?_, ht, ?_, ?_, ?_, ?_⟩
  · rw [he]
    simp [hasTechnique, count, AList.mem_insert]
  · intro ts hts
    rw [ht] at hts
    injection hts with h2
    subst h2
    exact ⟨rfl, fun _ => rfl⟩
  · rw [he]
    simp [hasFallback, count, AList.mem_insert]
  · rw [he]
    simp [getFallback, AList.lookup_insert]
  · intro other ho
    rw [he]
    exact ⟨AList.lookup_insert_ne ho, AList.lookup_insert_ne ho⟩

/-- C9, at an effect holding only "A": `addTechnique("glow", {1, 2}, "A")`. -/
theorem addTechniqueWithFallback_fresh_witness :
    effectAB.hasTechnique "glow" = false
      ∧ (addTechniqueWithFallback tracePass effectAB freshStore "glow" [1, 2] "A").thrown = none
      ∧ (addTechniqueWithFallback tracePass effectAB freshStore "glow" [1, 2] "A").effect.technique
          "glow" = .ok [1, 2]
      ∧ (addTechniqueWithFallback tracePass effectAB freshStore "glow" [1, 2]
          "A").effect.getFallback "glow" = .ok "A" :=
  ⟨by decide,
    (addTechniqueWithFallback_fresh tracePass effectAB freshStore "glow" [1, 2] "A"
      (by decide)).1,
    (addTechniqueWithFallback_fresh tracePass effectAB freshStore "glow" [1, 2] "A"
      (by decide)).2.2.1,
    (addTechniqueWithFallback_fresh tracePass effectAB freshStore "glow" [1, 2] "A"
      (by decide)).2.2.2.2.2.1⟩

/-! ### Sequences of calls on a pass whose parts are independent -/

theorem runCalls_concat (pass : PassCall V → P → P) (cs : List (PassCall V)) (c : PassCall V)
    (x : P) : runCalls pass (cs ++ [c]) x = pass c (runCalls pass cs x) := by
  simp [runCalls, List.foldl_append]

theorem filter_ne_concat_same (cs : List (PassCall V)) (c d : PassCall V)
    (h : slot d = slot c) :
    (cs ++ [d]).filter (fun a => slot a != slot c) = cs.filter (fun a => slot a != slot c) := by
  simp [List.filter_append, List.filter_cons, h]

theorem filter_ne_concat_other (cs : List (PassCall V)) (c d : PassCall V)
    (h : slot d ≠ slot c) :
    (cs ++ [d]).filter (fun a => slot a != slot c)
      = cs.filter (fun a => slot a != slot c) ++ [d] := by
  simp [List.filter_append, List.filter_cons, h]

theorem lastCall_concat_same (cs : List (PassCall V)) (d : PassCall V) :
    lastCall (slot d) (cs ++ [d]) = some d := by
  simp [lastCall, List.filter_append, List.filter_cons]

theorem lastCall_concat_other (σ : Slot) (cs : List (PassCall V)) (d : PassCall V)
    (h : slot d ≠ σ) : lastCall σ (cs ++ [d]) = lastCall σ cs := by
  simp [lastCall, List.filter_append, List.filter_cons, h]

/-- Before a call on a part, the earlier calls on that part do not matter. -/
theorem runCalls_absorb (pass : PassCall V → P → P)
    (hcomm : ∀ c d x, slot c ≠ slot d → pass c (pass d x) = pass d (pass c x))
    (hover : ∀ c d x, slot c = slot d → pass d (pass c x) = pass d x)
    (c : PassCall V) (cs : List (PassCall V)) (x : P) :
    pass c (runCalls pass cs x)
      = pass c (runCalls pass (cs.filter (fun a => slot a != slot c)) x) := by
  induction cs using List.reverseRecOn with
  | nil => rfl
  | append_singleton cs d ih =>
    by_cases h : slot d = slot c
    · rw [filter_ne_concat_same cs c d h, runCalls_concat, hover d c _ h]
      exact ih
    · rw [filter_ne_concat_other cs c d h, runCalls_concat, runCalls_concat,
        hcomm c d _ (fun e => h e.symm), ih, hcomm c d _ (fun e => h e.symm)]

/-- A sequence of calls amounts to its last call on a part, made after the calls on the other
parts. -/
theorem runCalls_of_lastCall (pass : PassCall V → P → P)
    (hcomm : ∀ c d x, slot c ≠ slot d → pass c (pass d x) = pass d (pass c x))
    (hover : ∀ c d x, slot c = slot d → pass d (pass c x) = pass d x)
    (c : PassCall V) (cs : List (PassCall V)) (x : P) (h : lastCall (slot c) cs = some c) :
    runCalls pass cs x = pass c (runCalls pass (cs.filter (fun a => slot a != slot c)) x) := by
  induction cs using List.reverseRecOn with
  | nil => simp [lastCall] at h
  | append_singleton cs d ih =>
    by_cases hd : slot d = slot c
    · rw [← hd, lastCall_concat_same] at h
      have hdc : d = c := Option.some.inj h
      subst hdc
      rw [filter_ne_concat_same cs d d rfl, runCalls_concat]
      exact runCalls_absorb pass hcomm hover d cs x
    · rw [lastCall_concat_other (slot c) cs d hd] at h
      rw [filter_ne_concat_other cs c d hd, runCalls_concat, runCalls_concat, ih h]
      exact hcomm d c _ hd

theorem lastCall_filter_ne (σ τ : Slot) (cs : List (PassCall V)) :
    lastCall τ (cs.filter (fun a => slot a != σ)) = if τ = σ then none else lastCall τ cs := by
  unfold lastCall
  rw [List.filter_filter]
  by_cases h : τ = σ
  · subst h
    have hf : cs.filter (fun a => (slot a == τ) && (slot a != τ)) = [] := by
      rw [List.filter_eq_nil_iff]
      intro a _
      by_cases ha : slot a = τ <;> simp [ha]
    simp [hf]
  · have hf : ∀ a : PassCall V, ((slot a == τ) && (slot a != σ)) = (slot a == τ) := by
      intro a
      by_cases ha : slot a = τ
      · simp [ha, h]
      · simp [ha]
    simp [h, hf]

/-- Two sequences of calls with the same last call on every part leave a pass in the same
state. -/
theorem runCalls_congr_lastCall (pass : PassCall V → P → P)
    (hcomm : ∀ c d x, slot c ≠ slot d → pass c (pass d x) = pass d (pass c x))
    (hover : ∀ c d x, slot c = slot d → pass d (pass c x) = pass d x)
    (n : Nat) : ∀ (as bs : List (PassCall V)) (x : P), as.length ≤ n
      → (∀ σ, lastCall σ as = lastCall σ bs) → runCalls pass as x = runCalls pass bs x := by
  induction n with
  | zero =>
    intro as bs x hlen h
    have ha : as = [] := List.length_eq_zero.mp (Nat.le_zero.mp hlen)
    subst ha
    rcases List.eq_nil_or_concat bs with hb | ⟨bs2, d, hb⟩
    · rw [hb]
    · rw [List.concat_eq_append] at hb
      subst hb
      have := h (slot d)
      rw [lastCall_concat_same] at this
      simp [lastCall] at this
  | succ n ih =>
    intro as bs x hlen h
    rcases List.eq_nil_or_concat as with ha | ⟨as2, c, ha⟩
    · subst ha
      exact ih [] bs x (Nat.zero_le n) h
    · rw [List.concat_eq_append] at ha
      subst ha
      have h1 : lastCall (slot c) (as2 ++ [c]) = some c := lastCall_concat_same as2 c
      have h2 : lastCall (slot c) bs = some c := (h (slot c)).symm.trans h1
      rw [runCalls_of_lastCall pass hcomm hover c _ x h1,
        runCalls_of_lastCall pass hcomm hover c _ x h2]
      congr 1
      apply ih
      · rw [filter_ne_concat_same as2 c c rfl]
        have hl : (as2.filter (fun a => slot a != slot c)).length ≤ as2.length :=
          List.length_filter_le _ _
        simp only [List.length_append, List.length_singleton] at hlen
        omega
      · intro τ
        rw [lastCall_filter_ne, lastCall_filter_ne, h τ]

/-- A call repeated on a pass amounts to the call made once. -/
theorem iterate_call (pass : PassCall V → P → P)
    (hover : ∀ c d x, slot c = slot d → pass d (pass c x) = pass d x)
    (c : PassCall V) (k : Nat) (x : P) : (pass c)^[k + 1] x = pass c x := by
  induction k with
  | zero => rfl
  | succ k ih => rw [Function.iterate_succ_apply', ih, hover c c x rfl]

theorem lastCall_append (σ : Slot) (as bs : List (PassCall V)) :
    lastCall σ (as ++ bs) = (lastCall σ bs).or (lastCall σ as) := by
  simp [lastCall, List.filter_append]

/-- A sequence of calls repeated on a pass amounts to the sequence made once. -/
theorem iterate_runCalls (pass : PassCall V → P → P)
    (hcomm : ∀ c d x, slot c ≠ slot d → pass c (pass d x) = pass d (pass c x))
    (hover : ∀ c d x, slot c = slot d → pass d (pass c x) = pass d x)
    (cs : List (PassCall V)) (k : Nat) (x : P) :
    (runCalls pass cs)^[k + 1] x = runCalls pass cs x := by
  induction k with
  | zero => rfl
  | succ k ih =>
    rw [Function.iterate_succ_apply', ih, ← runCalls_append]
    apply runCalls_congr_lastCall pass hcomm hover (cs ++ cs).length _ _ _ (Nat.le_refl _)
    intro σ
    rw [lastCall_append]
    cases lastCall σ cs <;> rfl

/-- The mutators, seen from one pass: nothing when no registered slot holds it, otherwise the
calls in the order of the mutators. -/
theorem mutateAll_store_apply (pass : PassCall V → P → P)
    (hover : ∀ c d x, slot c = slot d → pass d (pass c x) = pass d x)
    (e : Effect V) (s : Store P) (ms : List (PassCall V)) (q : PassPtr) :
    (mutateAll pass e s ms).2 q
      = if occurrences e.techniques q = 0 then s q else runCalls pass ms (s q) := by
  induction ms generalizing e s with
  | nil =>
    by_cases h : occurrences e.techniques q = 0 <;> simp [mutateAll, runCalls, h]
  | cons c ms ih =>
    rw [mutateAll_cons, ih, (mutate_techniques pass e s c).1, mutate_store, forEachPass_apply]
    by_cases h : occurrences e.techniques q = 0
    · simp [h]
    · obtain ⟨k, hk⟩ : ∃ k, occurrences e.techniques q = k + 1 :=
        ⟨occurrences e.techniques q - 1, by omega⟩
      rw [if_neg h, if_neg h, hk, iterate_call pass hover]
      rfl

theorem filter_and_left (p r : PassCall V → Bool) (cs : List (PassCall V))
    (h : ∀ a, p a = true → r a = true) :
    (cs.filter r).filter p = cs.filter p := by
  rw [List.filter_filter]
  congr 1
  funext a
  cases hp : p a with
  | false => rfl
  | true => simp [h a hp]

theorem filter_and_none (p r : PassCall V → Bool) (cs : List (PassCall V))
    (h : ∀ a, p a = true → r a = false) :
    (cs.filter r).filter p = [] := by
  rw [List.filter_filter, List.filter_eq_nil_iff]
  intro a _
  cases hp : p a with
  | false => simp
  | true => simp [h a hp]

/-- The calls grouped by kind, with only the last `setIndexBuffer`, have the same last call on
every part as the calls in their original order. -/
theorem lastCall_grouped (σ : Slot) (ms : List (PassCall V)) :
    lastCall σ (ms.filter isUniform ++ ms.filter isAttribute
        ++ ((ms.filter isIndex).getLast?).toList ++ ms.filter isMacro)
      = lastCall σ ms := by
  have hidx : ∀ c, (ms.filter isIndex).getLast? = some c → isIndex c = true := by
    intro c hc
    have hm : c ∈ ms.filter isIndex := List.mem_of_getLast?_eq_some hc
    exact (List.mem_filter.mp hm).2
  unfold lastCall
  simp only [List.filter_append]
  cases σ with
  | uniform name =>
    rw [filter_and_left _ isUniform ms (by intro a; cases a <;> simp [slot, isUniform]),
      filter_and_none _ isAttribute ms (by intro a; cases a <;> simp [slot, isAttribute]),
      filter_and_none _ isMacro ms (by intro a; cases a <;> simp [slot, isMacro])]
    cases hl : (ms.filter isIndex).getLast? with
    | none => simp
    | some c =>
      have := hidx c hl
      cases c <;> simp [isIndex] at this
      simp [slot]
  | vertexAttribute name =>
    rw [filter_and_none _ isUniform ms (by intro a; cases a <;> simp [slot, isUniform]),
      filter_and_left _ isAttribute ms (by intro a; cases a <;> simp [slot, isAttribute]),
      filter_and_none _ isMacro ms (by intro a; cases a <;> simp [slot, isMacro])]
    cases hl : (ms.filter isIndex).getLast? with
    | none => simp
    | some c =>
      have := hidx c hl
      cases c <;> simp [isIndex] at this
      simp [slot]
  | indexBuffer =>
    rw [filter_and_none _ isUniform ms (by intro a; cases a <;> simp [slot, isUniform]),
      filter_and_none _ isAttribute ms (by intro a; cases a <;> simp [slot, isAttribute]),
      filter_and_none _ isMacro ms (by intro a; cases a <;> simp [slot, isMacro])]
    have hp : (fun c : PassCall V => slot c == Slot.indexBuffer) = isIndex := by
      funext a
      cases a <;> simp [slot, isIndex]
    rw [hp]
    cases hl : (ms.filter isIndex).getLast? with
    | none => simp
    | some c =>
      have := hidx c hl
      simp [this]
  | definition name =>
    rw [filter_and_none _ isUniform ms (by intro a; cases a <;> simp [slot, isUniform]),
      filter_and_none _ isAttribute ms (by intro a; cases a <;> simp [slot, isAttribute]),
      filter_and_left _ isMacro ms (by intro a; cases a <;> simp [slot, isMacro])]
    cases hl : (ms.filter isIndex).getLast? with
    | none => simp
    | some c =>
      have := hidx c hl
      cases c <;> simp [isIndex] at this
      simp [slot]

theorem replayCalls_create_mutateAll (pass : PassCall V → P → P) (n : String) (s : Store P)
    (ms : List (PassCall V)) :
    replayCalls (mutateAll pass (create n) s ms).1
      = ms.filter isUniform ++ ms.filter isAttribute
        ++ ((ms.filter isIndex).getLast?).toList ++ ms.filter isMacro := by
  obtain ⟨h1, h2, h3, h4⟩ := mutateAll_calls pass (create n) s ms
  unfold replayCalls
  rw [h1, h2, h3, h4]
  simp [uniformCalls, attributeCalls, indexCall, macroCalls, create]

/-- C15: let a pass keep its uniforms, vertex attributes, index buffer and macros as
independent parts of its state: calls on different parts commute (`hcomm`) and a call on a
part replaces what an earlier call on the same part has set (`hover`). Then for every sequence
`ms` of mutators and every pass list `ps`, every pass ends in the same state whether the
technique is added by `addTechnique(name, ps)` after `ms` was applied to the fresh effect, or
added to the fresh effect first and `ms` applied afterwards; both effects then hold `ps` under
`name`. -/
theorem addTechnique_late_eq_early (pass : PassCall V → P → P)
    (hcomm : ∀ c d x, slot c ≠ slot d → pass c (pass d x) = pass d (pass c x))
    (hover : ∀ c d x, slot c = slot d → pass d (pass c x) = pass d x)
    (n name : String) (s : Store P) (ms : List (PassCall V)) (ps : Technique) :
    (∀ q, (addTechnique pass (mutateAll pass (create n) s ms).1
          (mutateAll pass (create n) s ms).2 name ps).store q
        = (mutateAll pass (addTechnique pass (create n) s name ps).effect
            (addTechnique pass (create n) s name ps).store ms).2 q)
      ∧ (addTechnique pass (mutateAll pass (create n) s ms).1
          (mutateAll pass (create n) s ms).2 name ps).effect.technique name = .ok ps
      ∧ (mutateAll pass (addTechnique pass (create n) s name ps).effect
            (addTechnique pass (create n) s name ps).store ms).1.technique name = .ok ps := by
  have ht : (mutateAll pass (create n) s ms).1.techniques = ∅ :=
    (mutateAll_techniques pass (create n) s ms).1
  have hc1 : (count (mutateAll pass (create n) s ms).1.techniques name != 0) = false := by
    rw [ht]
    simp [count]
  have hc0 : (count (create n : Effect V).techniques name != 0) = false := by
    simp [count, create]
  have hocc0 : ∀ q, occurrences (create n : Effect V).techniques q = 0 := by
    intro q
    simp [occurrences, create]
  have he0 : (addTechnique pass (create n) s name ps).effect.techniques
      = (∅ : StringMap Technique).insert name ps := by
    simp only [addTechnique, hc0, Bool.false_eq_true, if_false]
    rfl
  have hocc : ∀ q, occurrences (addTechnique pass (create n) s name ps).effect.techniques q
      = ps.count q := by
    intro q
    rw [he0]
    simp [occurrences, AList.insert_entries]
  have hs0 : ∀ q, (addTechnique pass (create n) s name ps).store q = s q := by
    intro q
    simp only [addTechnique, hc0, Bool.false_eq_true, if_false]
    rw [foldl_replayOnPass_apply]
    have hr : replayCalls (create n : Effect V) = [] := by
      simp [replayCalls, uniformCalls, attributeCalls, indexCall, macroCalls, create]
    rw [hr]
    exact Function.iterate_fixed rfl _
  refine ⟨?_, ?_, ?_⟩
  · intro q
    rw [mutateAll_store_apply pass hover, hocc, hs0]
    simp only [addTechnique, hc1, Bool.false_eq_true, if_false]
    rw [foldl_replayOnPass_apply, mutateAll_store_apply pass hover, if_pos (hocc0 q)]
    by_cases hk : ps.count q = 0
    · rw [if_pos hk, hk]
      rfl
    · obtain ⟨k, hk2⟩ : ∃ k, ps.count q = k + 1 := ⟨ps.count q - 1, by omega⟩
      rw [if_neg hk, hk2, iterate_runCalls pass hcomm hover, replayCalls_create_mutateAll]
      apply runCalls_congr_lastCall pass hcomm hover _ _ _ _ (Nat.le_refl _)
      intro σ
      exact lastCall_grouped σ ms
  · simp [addTechnique, hc1, technique]
  · rw [technique, (mutateAll_techniques pass _ _ ms).1, he0, AList.lookup_insert]

/-- C15, with passes that keep the last value set on each part: the technique {0, 1, 1} and a
history with calls of every kind. -/
theorem addTechnique_late_eq_early_witness :
    (addTechnique slotPass (mutateAll slotPass (create "fx") unsetStore mixedHistory).1
          (mutateAll slotPass (create "fx") unsetStore mixedHistory).2 "t" [0, 1, 1]).store 0
        = (mutateAll slotPass (addTechnique slotPass (create "fx") unsetStore "t" [0, 1, 1]).effect
            (addTechnique slotPass (create "fx") unsetStore "t" [0, 1, 1]).store mixedHistory).2 0
      ∧ (addTechnique slotPass (mutateAll slotPass (create "fx") unsetStore mixedHistory).1
          (mutateAll slotPass (create "fx") unsetStore mixedHistory).2 "t" [0, 1, 1]).store 1
        = (mutateAll slotPass (addTechnique slotPass (create "fx") unsetStore "t" [0, 1, 1]).effect
            (addTechnique slotPass (create "fx") unsetStore "t" [0, 1, 1]).store mixedHistory).2 1 :=
  ⟨(addTechnique_late_eq_early slotPass
      (by
        intro c d x h
        exact (Function.update_comm h (some c) (some d) x).symm)
      (by
        intro c d x h
        simp only [slotPass]
        rw [h, Function.update_idem])
      "fx" "t" unsetStore mixedHistory [0, 1, 1]).1 0,
    (addTechnique_late_eq_early slotPass
      (by
        intro c d x h
        exact (Function.update_comm h (some c) (some d) x).symm)
      (by
        intro c d x h
        simp only [slotPass]
        rw [h, Function.update_idem])
      "fx" "t" unsetStore mixedHistory [0, 1, 1]).1 1⟩

/-! ### The invariant of the technique registry -/

/-- One call of the interface, failing or not, keeps every name with a fallback among the names
with a technique. -/
theorem step_fallback_subset (pass : PassCall V → P → P) (e : Effect V) (s : Store P)
    (c : Call V) (h : ∀ m, m ∈ e.fallback → m ∈ e.techniques) :
    ∀ m, m ∈ (step pass e s c).effect.fallback → m ∈ (step pass e s c).effect.techniques := by
  cases c with
  | mutate c =>
    intro m hm
    have ht := mutate_techniques pass e s c
    simp only [step] at hm ⊢
    rw [ht.1]
    rw [ht.2] at hm
    exact h m hm
  | addTechnique name passes =>
    intro m
    simp only [step, addTechnique]
    split
    · exact h m
    · intro hm
      exact (AList.mem_insert _).mpr (Or.inr (h m hm))
  | addTechniqueWithFallback name passes fb =>
    intro m
    simp only [step, addTechniqueWithFallback, addTechnique]
    split
    · rename_i hc
      intro hm
      rcases (AList.mem_insert _).mp hm with hm | hm
      · subst hm
        by_contra hn
        simp [count, hn] at hc
      · exact h m hm
    · intro hm
      rcases (AList.mem_insert _).mp hm with hm | hm
      · exact (AList.mem_insert _).mpr (Or.inl hm)
      · exact (AList.mem_insert _).mpr (Or.inr (h m hm))
  | removeTechnique name =>
    intro m
    simp only [step, removeTechnique]
    split
    · exact h m
    · intro hm
      obtain ⟨h1, h2⟩ := AList.mem_erase.mp hm
      exact AList.mem_erase.mpr ⟨h1, h m h2⟩

theorem run_fallback_subset (pass : PassCall V → P → P) (e : Effect V) (s : Store P)
    (cs : List (Call V)) (h : ∀ m, m ∈ e.fallback → m ∈ e.techniques) :
    ∀ m, m ∈ (run pass e s cs).1.fallback → m ∈ (run pass e s cs).1.techniques := by
  induction cs generalizing e s with
  | nil => exact h
  | cons c cs ih =>
    rw [run_cons]
    exact ih _ _ (step_fallback_subset pass e s c h)

/-- Where every name with a fallback has a technique, a technique added by the two-argument
`addTechnique` has no fallback. -/
theorem addTechnique_leaves_no_fallback (pass : PassCall V → P → P) (e : Effect V) (s : Store P)
    (name : String) (passes : Technique) (h : ∀ m, m ∈ e.fallback → m ∈ e.techniques)
    (hok : (addTechnique pass e s name passes).thrown = none) :
    (addTechnique pass e s name passes).effect.hasFallback name = false := by
  have hn : ¬ name ∈ e.techniques := by
    intro hm
    simp [addTechnique, count, hm] at hok
  have hf : ¬ name ∈ e.fallback := fun hm => hn (h name hm)
  have hc : (count e.techniques name != 0) = false := by
    simp [count, hn]
  have he : (addTechnique pass e s name passes).effect.fallback = e.fallback := by
    simp only [addTechnique, hc, Bool.false_eq_true, if_false]
  simp [hasFallback, count, he, hf]

/-- C14: in every state reached from `Effect::create(name)` or `Effect::create(passes, name)` by
any sequence of calls of `addTechnique` (both overloads), `removeTechnique` and the mutators,
calls that throw included, `hasFallback(m)` implies `hasTechnique(m)` for every name `m`; and
a two-argument `addTechnique(name, ps)` that succeeds in such a state leaves
`hasFallback(name)` false. -/
theorem fallback_implies_technique (pass : PassCall V → P → P) (s : Store P) (n : String)
    (passes : Technique) (cs : List (Call V)) :
    (∀ m, (run pass (create n) s cs).1.hasFallback m = true
        → (run pass (create n) s cs).1.hasTechnique m = true)
      ∧ (∀ m, (run pass (createWithPasses passes n) s cs).1.hasFallback m = true
        → (run pass (createWithPasses passes n) s cs).1.hasTechnique m = true)
      ∧ (∀ name ps,
        (addTechnique pass (run pass (create n) s cs).1 (run pass (create n) s cs).2
          name ps).thrown = none
        → (addTechnique pass (run pass (create n) s cs).1 (run pass (create n) s cs).2
          name ps).effect.hasFallback name = false)
      ∧ (∀ name ps,
        (addTechnique pass (run pass (createWithPasses passes n) s cs).1
          (run pass (createWithPasses passes n) s cs).2 name ps).thrown = none
        → (addTechnique pass (run pass (createWithPasses passes n) s cs).1
          (run pass (createWithPasses passes n) s cs).2 name ps).effect.hasFallback name
            = false) := by
  have h0 : ∀ m, m ∈ (create n : Effect V).fallback → m ∈ (create n : Effect V).techniques := by
    intro m hm
    exact absurd hm (AList.not_mem_empty m)
  have h1 : ∀ m, m ∈ (createWithPasses passes n : Effect V).fallback
      → m ∈ (createWithPasses passes n : Effect V).techniques := by
    intro m hm
    exact absurd hm (AList.not_mem_empty m)
  have r0 := run_fallback_subset pass (create n) s cs h0
  have r1 := run_fallback_subset pass (createWithPasses passes n) s cs h1
  refine ⟨?_, ?_, ?_, ?_⟩
  · intro m hm
    exact (hasTechnique_iff _ m).mpr (r0 m ((hasFallback_iff _ m).mp hm))
  · intro m hm
    exact (hasTechnique_iff _ m).mpr (r1 m ((hasFallback_iff _ m).mp hm))
  · intro name ps hok
    exact addTechnique_leaves_no_fallback pass _ _ name ps r0 hok
  · intro name ps hok
    exact addTechnique_leaves_no_fallback pass _ _ name ps r1 hok

end Effect

end render

namespace file

namespace Dependency

variable {GW GT TW MW : Type}

/-- C10: registering a writer overwrites. After `setGeometryFunction(f1, t1, p)` then
`setGeometryFunction(f2, t2, p)` the registry holds `f2` and `t2` at `p`, what is registered at
every other priority is what was there before, and the second call adds no entry (the
priorities present are those present after the first call); the state is the one a single
`setGeometryFunction(f2, t2, p)` gives. After `setTextureFunction(g1)` then
`setTextureFunction(g2)` the texture writer is `g2`, and after `setMaterialFunction(h1)` then
`setMaterialFunction(h2)` the material writer is `h2`. -/
theorem setFunction_last_registration_wins (r : Statics GW GT TW MW) (f1 f2 : GW) (t1 t2 : GT)
    (p : Nat) (g1 g2 : TW) (h1 h2 : MW) :
    (setGeometryFunction (setGeometryFunction r f1 t1 p) f2 t2 p).geometryWriteFunctions.lookup p
        = some f2
      ∧ (setGeometryFunction (setGeometryFunction r f1 t1 p) f2 t2 p).geometryTestFunctions.lookup p
        = some t2
      ∧ (∀ q, q ≠ p →
          (setGeometryFunction (setGeometryFunction r f1 t1 p) f2 t2 p).geometryWriteFunctions.lookup q
            = r.geometryWriteFunctions.lookup q
          ∧ (setGeometryFunction (setGeometryFunction r f1 t1 p) f2 t2 p).geometryTestFunctions.lookup q
            = r.geometryTestFunctions.lookup q)
      ∧ (setGeometryFunction (setGeometryFunction r f1 t1 p) f2 t2 p).geometryWriteFunctions.keys
        = (setGeometryFunction r f1 t1 p).geometryWriteFunctions.keys
      ∧ (setGeometryFunction (setGeometryFunction r f1 t1 p) f2 t2 p).geometryTestFunctions.keys
        = (setGeometryFunction r f1 t1 p).geometryTestFunctions.keys
      ∧ (setGeometryFunction (setGeometryFunction r f1 t1 p) f2 t2 p).geometryWriteFunctions.entries.length
        = (setGeometryFunction r f1 t1 p).geometryWriteFunctions.entries.length
      ∧ (setGeometryFunction (setGeometryFunction r f1 t1 p) f2 t2 p).geometryTestFunctions.entries.length
        = (setGeometryFunction r f1 t1 p).geometryTestFunctions.entries.length
      ∧ setGeometryFunction (setGeometryFunction r f1 t1 p) f2 t2 p = setGeometryFunction r f2 t2 p
      ∧ (setTextureFunction (setTextureFunction r g1) g2).textureWriteFunction = g2
      ∧ setTextureFunction (setTextureFunction r g1) g2 = setTextureFunction r g2
      ∧ (setMaterialFunction (setMaterialFunction r h1) h2).materialWriteFunction = h2
      ∧ setMaterialFunction (setMaterialFunction r h1) h2 = setMaterialFunction r h2 := by
  have hk : ∀ {T : Type} (m : UIntMap T) (a b : T),
      ((m.insert p a).insert p b).keys = (m.insert p a).keys := by
    intro T m a b
    rw [AList.insert_insert]
    simp [AList.keys_insert]
  have hl : ∀ {T : Type} (m : UIntMap T) (a b : T),
      ((m.insert p a).insert p b).entries.length = (m.insert p a).entries.length := by
    intro T m a b
    have h := congrArg List.length (hk m a b)
    simp only [AList.keys, List.keys, List.length_map] at h
    exact h
  refine ⟨?_, ?_, ?_, ?_, ?_, ?_, ?_, ?_, rfl, rfl, rfl, rfl⟩
  · simp [setGeometryFunction, AList.lookup_insert]
  · simp [setGeometryFunction, AList.lookup_insert]
  · intro q hq
    simp [setGeometryFunction, AList.lookup_insert_ne hq]
  · exact hk _ _ _
  · exact hk _ _ _
  · exact hl _ _ _
  · exact hl _ _ _
  · simp [setGeometryFunction, AList.insert_insert]

/-! ### The identity registry -/

theorem dependencies_setDependencies_same (s : Session) (k : Kind) (m : PtrMap Nat) :
    (s.setDependencies k m).dependencies k = m := by
  cases k <;> rfl

theorem dependencies_setDependencies_other (s : Session) (k k2 : Kind) (m : PtrMap Nat)
    (h : k2 ≠ k) : (s.setDependencies k m).dependencies k2 = s.dependencies k2 := by
  cases k <;> cases k2 <;> first | rfl | exact absurd rfl h

/-- A registered object keeps its id and its session as they are. -/
theorem registerDependency_of_lookup (s : Session) (k : Kind) (a : ObjectPtr) (i : Nat)
    (h : (s.dependencies k).lookup a = some i) : registerDependency s k a = (i, s) := by
  simp [registerDependency, h]

/-- After `registerDependency(a)` the table of the kind holds the returned id under `a`. -/
theorem registerDependency_lookup_self (s : Session) (k : Kind) (a : ObjectPtr) :
    ((registerDependency s k a).2.dependencies k).lookup a = some (registerDependency s k a).1 := by
  unfold registerDependency
  cases h : (s.dependencies k).lookup a with
  | some i => simpa using h
  | none => simp [dependencies_setDependencies_same, AList.lookup_insert]

/-- A registration of any object of any kind keeps the ids already assigned. -/
theorem registerDependency_keeps (s : Session) (k k2 : Kind) (a b : ObjectPtr) (i : Nat)
    (h : (s.dependencies k).lookup a = some i) :
    ((registerDependency s k2 b).2.dependencies k).lookup a = some i := by
  unfold registerDependency
  cases hb : (s.dependencies k2).lookup b with
  | some j => simpa using h
  | none =>
    by_cases hk : k = k2
    · subst hk
      have hab : a ≠ b := by
        intro e
        subst e
        rw [h] at hb
        cases hb
      simp only [dependencies_setDependencies_same]
      rw [AList.lookup_insert_ne hab]
      exact h
    · simp only [dependencies_setDependencies_other _ _ _ _ hk]
      exact h

theorem registerAll_cons (s : Session) (op : Kind × ObjectPtr) (ops : List (Kind × ObjectPtr)) :
    registerAll s (op :: ops) = registerAll (registerDependency s op.1 op.2).2 ops := by
  simp [registerAll]

theorem registerAll_keeps (s : Session) (ops : List (Kind × ObjectPtr)) (k : Kind)
    (a : ObjectPtr) (i : Nat) (h : (s.dependencies k).lookup a = some i) :
    ((registerAll s ops).dependencies k).lookup a = some i := by
  induction ops generalizing s with
  | nil => exact h
  | cons op ops ih =>
    rw [registerAll_cons]
    exact ih _ (registerDependency_keeps s k op.1 a op.2 i h)

/-- C11: for every session, kind and object `A`, a second `registerDependency(A)`, after any
registrations in between, returns the id of the first and leaves the session as it was, so it
changes no id of any object. -/
theorem registerDependency_idempotent (s : Session) (k : Kind) (A : ObjectPtr)
    (between : List (Kind × ObjectPtr)) :
    (registerDependency (registerAll (registerDependency s k A).2 between) k A).1
        = (registerDependency s k A).1
      ∧ (registerDependency (registerAll (registerDependency s k A).2 between) k A).2
        = registerAll (registerDependency s k A).2 between
      ∧ (registerDependency (registerDependency s k A).2 k A).1 = (registerDependency s k A).1
      ∧ (registerDependency (registerDependency s k A).2 k A).2 = (registerDependency s k A).2
      ∧ (∀ k2 o, ((registerDependency (registerAll (registerDependency s k A).2 between)
            k A).2.dependencies k2).lookup o
          = ((registerAll (registerDependency s k A).2 between).dependencies k2).lookup o) := by
  have h1 := registerDependency_lookup_self s k A
  have h2 := registerAll_keeps _ between k A _ h1
  have h3 := registerDependency_of_lookup _ k A _ h2
  have h4 := registerDependency_of_lookup _ k A _ h1
  refine ⟨?_, ?_, ?_, ?_, ?_⟩
  · rw [h3]
  · rw [h3]
  · rw [h4]
  · rw [h4]
  · intro k2 o
    rw [h3]

/-- The two facts kept by every registration: an id of a kind is below the number of objects of
that kind, and two objects of a kind with the same id are the same object. -/
theorem registerDependency_invariant (s : Session) (k2 : Kind) (b : ObjectPtr)
    (hb : ∀ k o i, (s.dependencies k).lookup o = some i → i < (s.dependencies k).keys.length)
    (hi : ∀ k o1 o2 i, (s.dependencies k).lookup o1 = some i
      → (s.dependencies k).lookup o2 = some i → o1 = o2) :
    (∀ k o i, ((registerDependency s k2 b).2.dependencies k).lookup o = some i
        → i < ((registerDependency s k2 b).2.dependencies k).keys.length)
      ∧ (∀ k o1 o2 i, ((registerDependency s k2 b).2.dependencies k).lookup o1 = some i
        → ((registerDependency s k2 b).2.dependencies k).lookup o2 = some i → o1 = o2) := by
  unfold registerDependency
  cases hl : (s.dependencies k2).lookup b with
  | some j => exact ⟨hb, hi⟩
  | none =>
    have hnm : b ∉ (s.dependencies k2).keys := by
      rw [← AList.mem_keys]
      exact AList.lookup_eq_none.mp hl
    have hlen : (AList.insert b (s.dependencies k2).keys.length (s.dependencies k2)).keys.length
        = (s.dependencies k2).keys.length + 1 := by
      rw [AList.keys_insert, List.erase_of_not_mem hnm, List.length_cons]
    have hlook : ∀ o i,
        (AList.insert b (s.dependencies k2).keys.length (s.dependencies k2)).lookup o = some i
        → (o = b ∧ i = (s.dependencies k2).keys.length)
          ∨ (o ≠ b ∧ (s.dependencies k2).lookup o = some i) := by
      intro o i h
      by_cases hob : o = b
      · subst hob
        rw [AList.lookup_insert] at h
        exact Or.inl ⟨rfl, (Option.some.inj h).symm⟩
      · rw [AList.lookup_insert_ne hob] at h
        exact Or.inr ⟨hob, h⟩
    refine ⟨?_, ?_⟩
    · intro k o i h
      by_cases hk : k = k2
      · subst hk
        simp only [dependencies_setDependencies_same] at h ⊢
        rw [hlen]
        rcases hlook o i h with ⟨_, h2⟩ | ⟨_, h2⟩
        · omega
        · have := hb k o i h2
          omega
      · simp only [dependencies_setDependencies_other _ _ _ _ hk] at h ⊢
        exact hb k o i h
    · intro k o1 o2 i h1 h2
      by_cases hk : k = k2
      · subst hk
        simp only [dependencies_setDependencies_same] at h1 h2
        rcases hlook o1 i h1 with ⟨e1, g1⟩ | ⟨_, g1⟩ <;>
          rcases hlook o2 i h2 with ⟨e2, g2⟩ | ⟨_, g2⟩
        · rw [e1, e2]
        · have := hb k o2 i g2
          omega
        · have := hb k o1 i g1
          omega
        · exact hi k o1 o2 i g1 g2
      · simp only [dependencies_setDependencies_other _ _ _ _ hk] at h1 h2
        exact hi k o1 o2 i h1 h2

theorem registerAll_invariant (s : Session) (ops : List (Kind × ObjectPtr))
    (hb : ∀ k o i, (s.dependencies k).lookup o = some i → i < (s.dependencies k).keys.length)
    (hi : ∀ k o1 o2 i, (s.dependencies k).lookup o1 = some i
      → (s.dependencies k).lookup o2 = some i → o1 = o2) :
    (∀ k o i, ((registerAll s ops).dependencies k).lookup o = some i
        → i < ((registerAll s ops).dependencies k).keys.length)
      ∧ (∀ k o1 o2 i, ((registerAll s ops).dependencies k).lookup o1 = some i
        → ((registerAll s ops).dependencies k).lookup o2 = some i → o1 = o2) := by
  induction ops generalizing s with
  | nil => exact ⟨hb, hi⟩
  | cons op ops ih =>
    rw [registerAll_cons]
    obtain ⟨h1, h2⟩ := registerDependency_invariant s op.1 op.2 hb hi
    exact ih _ h1 h2

theorem create_invariant :
    (∀ k o i, (create.dependencies k).lookup o = some i → i < (create.dependencies k).keys.length)
      ∧ (∀ k o1 o2 i, (create.dependencies k).lookup o1 = some i
        → (create.dependencies k).lookup o2 = some i → o1 = o2) := by
  refine ⟨?_, ?_⟩
  · intro k o i h
    cases k <;> simp [create, Session.dependencies] at h
  · intro k o1 o2 i h
    cases k <;> simp [create, Session.dependencies] at h

/-- C12: in a session, that is after any registrations on a fresh `Dependency`, two distinct
objects `A` and `B` of one kind get distinct ids from `registerDependency`; and when `A` has its
id and `B` has none yet (`A` was first registered before `B`), the id `B` then gets is greater
than the id of `A`. -/
theorem registerDependency_distinct_increasing (ops : List (Kind × ObjectPtr)) (k : Kind)
    (A B : ObjectPtr) (h : A ≠ B) :
    (registerDependency (registerAll create ops) k A).1
        ≠ (registerDependency (registerDependency (registerAll create ops) k A).2 k B).1
      ∧ (∀ a, ((registerAll create ops).dependencies k).lookup A = some a
          → hasDependency (registerAll create ops) k B = false
          → a < (registerDependency (registerAll create ops) k B).1)
      ∧ (hasDependency (registerDependency (registerAll create ops) k A).2 k B = false
          → (registerDependency (registerAll create ops) k A).1
            < (registerDependency (registerDependency (registerAll create ops) k A).2 k B).1) := by
  obtain ⟨hb, hi⟩ := registerAll_invariant create ops create_invariant.1 create_invariant.2
  obtain ⟨hb1, hi1⟩ := registerDependency_invariant (registerAll create ops) k A hb hi
  have hA := registerDependency_lookup_self (registerAll create ops) k A
  have hB := registerDependency_lookup_self (registerDependency (registerAll create ops) k A).2 k B
  have hA2 := registerDependency_keeps (registerDependency (registerAll create ops) k A).2 k k A B
    _ hA
  obtain ⟨_, hi2⟩ := registerDependency_invariant
    (registerDependency (registerAll create ops) k A).2 k B hb1 hi1
  have hfresh : ∀ (t : Session) (a : Nat),
      (∀ k o i, (t.dependencies k).lookup o = some i → i < (t.dependencies k).keys.length)
      → (t.dependencies k).lookup A = some a → hasDependency t k B = false
      → a < (registerDependency t k B).1 := by
    intro t a hbt hl hn
    have hnone : (t.dependencies k).lookup B = none := by
      rw [AList.lookup_eq_none]
      intro hm
      simp [hasDependency, count, hm] at hn
    simp only [registerDependency, hnone]
    exact hbt k A a hl
  refine ⟨?_, ?_, ?_⟩
  · intro e
    rw [e] at hA2
    exact h (hi2 k A B _ hA2 hB)
  · intro a hl hn
    exact hfresh _ a hb hl hn
  · intro hn
    exact hfresh _ _ hb1 hA hn

/-- C12, in a session where the geometries 10 and 20 were registered: the geometries 30 and 40
get distinct ids. -/
theorem registerDependency_distinct_increasing_witness :
    (30 : ObjectPtr) ≠ 40
      ∧ (registerDependency (registerAll create [(.geometry, 10), (.texture, 5), (.geometry, 20)])
          .geometry 30).1
        ≠ (registerDependency (registerDependency
            (registerAll create [(.geometry, 10), (.texture, 5), (.geometry, 20)])
            .geometry 30).2 .geometry 40).1 :=
  ⟨by decide, (registerDependency_distinct_increasing
    [(.geometry, 10), (.texture, 5), (.geometry, 20)] .geometry 30 40 (by decide)).1⟩

/-- C13: in a fresh session `registerDependency(G1)` returns 0 for a geometry `G1`, then
`registerDependency(T1)` returns 0 for a texture `T1`, and `registerDependency(G1)` again
returns 0. -/
theorem registerDependency_ids_restart_per_kind (G1 T1 : ObjectPtr) :
    (registerDependency create .geometry G1).1 = 0
      ∧ (registerDependency (registerDependency create .geometry G1).2 .texture T1).1 = 0
      ∧ (registerDependency (registerDependency (registerDependency create .geometry G1).2
          .texture T1).2 .geometry G1).1 = 0 := by
  have h1 : (registerDependency create .geometry G1).1 = 0 := by
    simp [registerDependency, create, Session.dependencies]
  have h2 : (registerDependency (registerDependency create .geometry G1).2 .texture T1).1 = 0 := by
    simp [registerDependency, create, Session.dependencies, Session.setDependencies]
  refine ⟨h1, h2, ?_⟩
  have hl := registerDependency_lookup_self create .geometry G1
  have hk := registerDependency_keeps (registerDependency create .geometry G1).2 .geometry
    .texture G1 T1 _ hl
  rw [registerDependency_of_lookup _ _ _ _ hk]
  exact h1

end Dependency

end file

end minko
